import Mathlib

/-!
# DeepSeek adapter of nanobot: stream accumulation and schema translation

A shallow embedding of `pkg/llm/deepseek` (`types.go`, `client.go`,
`translate.go`).  Go strings are Lean strings, Go `int` is `Int`, slices are
lists, a nil pointer is `none`, and an index-out-of-range panic is an
`Except.error`.
-/

namespace Deepseek

/-! ## Wire schema (`types.go`) -/

/-- The struct `FunctionCall` of `types.go`. -/
structure FunctionCall where
  Name : String := ""
  Arguments : String := ""
deriving DecidableEq, Repr

/-- The struct `ToolCall` of `types.go`; the field `Type` is spelled `Typ`. -/
structure ToolCall where
  ID : String := ""
  Typ : String := ""
  Index : Int := 0
  Function : FunctionCall := {}
deriving DecidableEq, Repr

/-- The struct `Message` of `types.go`. -/
structure Message where
  Role : String := ""
  Content : String := ""
  ToolCalls : List ToolCall := []
  ToolCallID : String := ""
deriving DecidableEq, Repr

/-- The struct `Choice` of `types.go`. -/
structure Choice where
  Index : Int := 0
  Message : Deepseek.Message := {}
  Delta : Deepseek.Message := {}
  FinishReason : String := ""
deriving DecidableEq, Repr

/-- The struct `StreamChunk` of `types.go`. -/
structure StreamChunk where
  ID : String := ""
  Object : String := ""
  Created : Int := 0
  Model : String := ""
  Choices : List Choice := []
deriving DecidableEq, Repr

/-- The struct `Usage` of `types.go`. -/
structure Usage where
  PromptTokens : Int := 0
  CompletionTokens : Int := 0
  TotalTokens : Int := 0
deriving DecidableEq, Repr

/-- The struct `Response` of `types.go`. -/
structure Response where
  ID : String := ""
  Object : String := ""
  Created : Int := 0
  Model : String := ""
  Choices : List Choice := []
  Usage : Option Deepseek.Usage := none
deriving DecidableEq, Repr

/-- The method `Response.GetContent` of `types.go`. -/
def Response.GetContent (r : Response) : String :=
  match r.Choices with
  | c :: _ => c.Message.Content
  | [] => ""

/-! ## Generic completion types used by the adapter -/

/-- Modelled from the spec: the annotations of an embedded resource
(`mcp.Annotations`, package `pkg/mcp`), of which the adapter reads the
audience list. -/
structure Annotations where
  Audience : List String := []
deriving DecidableEq, Repr

/-- Modelled from the spec: the embedded resource of a content block
(`mcp.EmbeddedResource`, package `pkg/mcp`): URI, declared media type, text
body, base64 body and optional annotations. -/
structure EmbeddedResource where
  URI : String := ""
  MIMEType : String := ""
  Text : String := ""
  Blob : String := ""
  Annotations : Option Deepseek.Annotations := none
deriving DecidableEq, Repr

/-- Modelled from the spec: the generic content block `mcp.Content` (package
`pkg/mcp`): a type tag, text, image data with its media type, and an optional
embedded resource. -/
structure Content where
  Typ : String := ""
  Text : String := ""
  Data : String := ""
  MIMEType : String := ""
  Resource : Option EmbeddedResource := none
deriving DecidableEq, Repr

/-- Modelled from the spec: the generic tool call `types.ToolCall` (package
`pkg/types`): call ID, function name and arguments text. -/
structure GenericToolCall where
  CallID : String := ""
  Name : String := ""
  Arguments : String := ""
deriving DecidableEq, Repr

/-- Modelled from the spec: the output of a tool invocation (the `Output`
field of `types.ToolCallResult`), of which the adapter reads the content
blocks. -/
structure CallResult where
  Content : List Deepseek.Content := []
deriving DecidableEq, Repr

/-- Modelled from the spec: the generic tool-invocation result
`types.ToolCallResult` (package `pkg/types`). -/
structure ToolCallResult where
  CallID : String := ""
  Output : CallResult := {}
deriving DecidableEq, Repr

/-- Modelled from the spec: the generic item `types.CompletionItem` (package
`pkg/types`); the three payload pointers are options. -/
structure CompletionItem where
  ID : String := ""
  Partial : Bool := false
  HasMore : Bool := false
  Content : Option Deepseek.Content := none
  ToolCall : Option GenericToolCall := none
  ToolCallResult : Option Deepseek.ToolCallResult := none
deriving DecidableEq, Repr

/-- Modelled from the spec: the progress event `types.CompletionProgress`
(package `pkg/types`). -/
structure CompletionProgress where
  Model : String := ""
  Agent : String := ""
  MessageID : String := ""
  Item : CompletionItem := {}
deriving DecidableEq, Repr

/-! ## Library string functions -/

/-- Go's `unicode.IsSpace`: the Latin-1 space characters and the other code
points with the Unicode White_Space property. -/
def isSpace (c : Char) : Bool :=
  let n := c.toNat
  (9 ≤ n && n ≤ 13) || n == 0x20 || n == 0x85 || n == 0xA0 || n == 0x1680 ||
  (0x2000 ≤ n && n ≤ 0x200A) || n == 0x2028 || n == 0x2029 || n == 0x202F ||
  n == 0x205F || n == 0x3000

/-- Go's `strings.HasPrefix`. -/
def hasPrefix (s pre : String) : Bool :=
  pre.data.isPrefixOf s.data

/-- Go's `strings.TrimPrefix`. -/
def trimPrefix (s pre : String) : String :=
  if hasPrefix s pre then ⟨s.data.drop pre.data.length⟩ else s

/-- Go's `strings.TrimSpace`. -/
def trimSpace (s : String) : String :=
  ⟨((s.data.dropWhile isSpace).reverse.dropWhile isSpace).reverse⟩

/-- The verb `%d` of `fmt.Sprintf` on an `int`: the decimal numeral, with a
minus sign when negative. -/
def formatInt (i : Int) : String :=
  toString i

/-! ## The stream loop of `Client.complete` (`client.go`) -/

/-- A Go run-time panic of the stream loop: an index outside a slice. -/
inductive RuntimeError where
  | indexOutOfRange (index : Int) (length : Nat)
deriving DecidableEq, Repr

/-- The variables the loop mutates: the accumulated response, and the progress
events handed to `progress.Send` so far (oldest first). -/
structure LoopState where
  resp : Response := {}
  events : List CompletionProgress := []
deriving DecidableEq, Repr

/-- The progress event of a content delta (`client.go`, lines 136-149). -/
def contentProgress (agentName : String) (resp : Response) (text : String) :
    CompletionProgress :=
  { Model := resp.Model, Agent := agentName, MessageID := resp.ID,
    Item := { ID := resp.ID ++ "-0", Partial := true, HasMore := true,
              Content := some { Typ := "text", Text := text } } }

/-- The progress event of a tool-call fragment (`client.go`, lines 176-190). -/
def toolCallProgress (agentName : String) (resp : Response) (tc : ToolCall) :
    CompletionProgress :=
  { Model := resp.Model, Agent := agentName, MessageID := resp.ID,
    Item := { ID := resp.ID ++ "-" ++ formatInt tc.Index, Partial := true,
              HasMore := true,
              ToolCall := some { CallID := tc.ID, Name := tc.Function.Name,
                                 Arguments := tc.Function.Arguments } } }

/-- The update of the tool-call list by one fragment (`client.go`, lines
163-174): an index at or beyond the length appends a slot built from the
fragment, an index inside the list appends the fragment's arguments to the
slot at that position, and a negative index is an out-of-range access. -/
def applyFragment (tcs : List ToolCall) (tc : ToolCall) :
    Except RuntimeError (List ToolCall) :=
  if tc.Index ≥ (tcs.length : Int) then
    .ok (tcs ++ [{ ID := tc.ID, Typ := tc.Typ,
                   Function := { Name := tc.Function.Name,
                                 Arguments := tc.Function.Arguments } }])
  else if tc.Index < 0 then
    .error (.indexOutOfRange tc.Index tcs.length)
  else
    .ok (tcs.modify
      (fun slot => { slot with Function :=
        { slot.Function with
          Arguments := slot.Function.Arguments ++ tc.Function.Arguments } })
      tc.Index.toNat)

/-- One iteration of the loop over the fragments of a delta (`client.go`,
lines 162-191): update the first choice's tool calls, then send the event. -/
def stepFragment (agentName : String) (st : LoopState) (tc : ToolCall) :
    Except RuntimeError LoopState :=
  match st.resp.Choices with
  | [] => .error (.indexOutOfRange 0 0)
  | c :: rest =>
    match applyFragment c.Message.ToolCalls tc with
    | .error e => .error e
    | .ok tcs =>
      let resp := { st.resp with
        Choices := { c with Message := { c.Message with ToolCalls := tcs } } :: rest }
      .ok { resp := resp, events := st.events ++ [toolCallProgress agentName resp tc] }

/-- The loop over the fragments of a delta (`client.go`, lines 162-191). -/
def stepFragments (agentName : String) :
    LoopState → List ToolCall → Except RuntimeError LoopState
  | st, [] => .ok st
  | st, tc :: rest =>
    match stepFragment agentName st tc with
    | .error e => .error e
    | .ok st1 => stepFragments agentName st1 rest

/-- The adoption of the response ID and model (`client.go`, lines 116-119). -/
def adoptID (resp : Response) (chunk : StreamChunk) : Response :=
  if resp.ID = "" then { resp with ID := chunk.ID, Model := chunk.Model } else resp

/-- The content-delta branch (`client.go`, lines 127-150). -/
def stepContent (agentName : String) (st : LoopState) (choice : Choice) : LoopState :=
  if choice.Delta.Content ≠ "" then
    let resp := { st.resp with
      Choices := [{ Message := { Role := "assistant",
                                 Content := st.resp.GetContent ++ choice.Delta.Content } }] }
    { resp := resp,
      events := st.events ++ [contentProgress agentName resp choice.Delta.Content] }
  else st

/-- The tool-call branch (`client.go`, lines 152-192). -/
def stepToolCalls (agentName : String) (st : LoopState) (choice : Choice) :
    Except RuntimeError LoopState :=
  if choice.Delta.ToolCalls.length > 0 then
    let st1 : LoopState :=
      if st.resp.Choices.length = 0 then
        { st with resp := { st.resp with Choices := [{ Message := { Role := "assistant" } }] } }
      else st
    stepFragments agentName st1 choice.Delta.ToolCalls
  else .ok st

/-- The finish-reason branch (`client.go`, lines 194-196). -/
def stepFinish (st : LoopState) (choice : Choice) : Except RuntimeError LoopState :=
  if choice.FinishReason ≠ "" then
    match st.resp.Choices with
    | [] => .error (.indexOutOfRange 0 0)
    | c :: rest =>
      .ok { st with resp := { st.resp with
              Choices := { c with FinishReason := choice.FinishReason } :: rest } }
  else .ok st

/-- The body of the loop for a successfully decoded chunk (`client.go`, lines
116-196). -/
def processChunk (agentName : String) (st : LoopState) (chunk : StreamChunk) :
    Except RuntimeError LoopState :=
  let st0 : LoopState := { st with resp := adoptID st.resp chunk }
  match chunk.Choices with
  | [] => .ok st0
  | choice :: _ =>
    match stepToolCalls agentName (stepContent agentName st0 choice) choice with
    | .error e => .error e
    | .ok st2 => stepFinish st2 choice

/-- The stream loop (`client.go`, lines 97-197) over the lines the scanner
yields; `decode` stands for `json.Unmarshal` into a fresh `StreamChunk`
(`none` when it reports an error). -/
def streamLoop (decode : String → Option StreamChunk) (agentName : String) :
    LoopState → List String → Except RuntimeError LoopState
  | st, [] => .ok st
  | st, line :: rest =>
    if !hasPrefix line "data: " then
      streamLoop decode agentName st rest
    else
      let data := trimSpace (trimPrefix line "data: ")
      if data = "[DONE]" then .ok st
      else
        match decode data with
        | none => streamLoop decode agentName st rest
        | some chunk =>
          match processChunk agentName st chunk with
          | .error e => .error e
          | .ok st1 => streamLoop decode agentName st1 rest

/-- The line scanner over the response body: the lines `Scan` yields, and the
value `Err` reports once the loop is left (`none` for a body read to its end
without a transport failure). -/
structure Scanner where
  lines : List String := []
  err : Option String := none
deriving DecidableEq, Repr

/-- What a call hands back: the pair `(*Response, error)` and the progress
events sent on the way. -/
structure CallOutcome where
  result : Except String Response
  events : List CompletionProgress

/-- The part of `Client.complete` after the status check (`client.go`, lines
92-208): run the loop from an empty response, then report a read error or the
accumulated response. -/
def complete (decode : String → Option StreamChunk) (agentName : String)
    (sc : Scanner) : Except RuntimeError CallOutcome :=
  match streamLoop decode agentName {} sc.lines with
  | .error e => .error e
  | .ok st =>
    match sc.err with
    | some e => .ok { result := .error ("failed to read response: " ++ e), events := st.events }
    | none => .ok { result := .ok st.resp, events := st.events }

/-! ## Generic request and response types -/

/-- A `float64` of the wire request, kept as its IEEE-754 bit pattern; the
adapter passes it on and never computes with it. -/
structure Float64 where
  bits : Nat := 0
deriving DecidableEq, Repr

/-- Modelled from the spec: the generic tool declaration
`types.ToolUseDefinition` (package `pkg/types`): name, description and raw
JSON parameter schema. -/
structure ToolUseDefinition where
  Name : String := ""
  Description : String := ""
  Parameters : String := ""
deriving DecidableEq, Repr

/-- Modelled from the spec: the generic message `types.Message` (package
`pkg/types`): ID, optional creation time, role and ordered items. -/
structure GenericMessage where
  ID : String := ""
  Created : Option Int := none
  Role : String := ""
  Items : List CompletionItem := []
deriving DecidableEq, Repr

/-- Modelled from the spec: the generic request `types.CompletionRequest`
(package `pkg/types`); the two `*json.Number` fields are optional numerals. -/
structure CompletionRequest where
  Model : String := ""
  Agent : String := ""
  MaxTokens : Int := 0
  Temperature : Option String := none
  TopP : Option String := none
  Tools : List ToolUseDefinition := []
  ToolChoice : String := ""
  SystemPrompt : String := ""
  Input : List GenericMessage := []
deriving DecidableEq, Repr

/-- Modelled from the spec: the generic response `types.CompletionResponse`
(package `pkg/types`). -/
structure CompletionResponse where
  Model : String := ""
  Output : GenericMessage := {}
deriving DecidableEq, Repr

/-- The struct `Function` of `types.go`. -/
structure Function where
  Name : String := ""
  Description : String := ""
  Parameters : String := ""
deriving DecidableEq, Repr

/-- The struct `Tool` of `types.go`. -/
structure Tool where
  Typ : String := ""
  Function : Deepseek.Function := {}
deriving DecidableEq, Repr

/-- The values the field `ToolChoice` (Go type `any`) of the wire request
takes: nil, a string, or a map from keys to such values (listed in the order
of the source literal). -/
inductive AnyValue where
  | null
  | str (s : String)
  | object (fields : List (String × AnyValue))
deriving Repr

/-- The struct `Request` of `types.go`. -/
structure Request where
  Model : String := ""
  Messages : List Message := []
  Temperature : Float64 := {}
  TopP : Float64 := {}
  MaxTokens : Int := 0
  Stream : Bool := false
  Tools : List Tool := []
  ToolChoice : AnyValue := .null
deriving Repr

/-! ## The translators (`translate.go`) -/

/-- The loop of `toResponse` over the accumulated tool calls (`translate.go`,
lines 42-51), `i` being the position of the head of the list. -/
def toolCallItems (respID : String) : Nat → List ToolCall → List CompletionItem
  | _, [] => []
  | i, tc :: rest =>
    { ID := respID ++ "-" ++ formatInt i,
      ToolCall := some { CallID := tc.ID, Name := tc.Function.Name,
                         Arguments := tc.Function.Arguments } }
      :: toolCallItems respID (i + 1) rest

/-- The function `toResponse` of `translate.go`; `created` is the time stamp. -/
def toResponse (resp : Response) (created : Int) : Except String CompletionResponse :=
  let result : CompletionResponse :=
    { Model := resp.Model,
      Output := { ID := resp.ID, Created := some created, Role := "assistant" } }
  match resp.Choices with
  | [] => .ok result
  | choice :: _ =>
    let textItems : List CompletionItem :=
      if choice.Message.Content ≠ "" then
        [{ ID := resp.ID ++ "-0",
           Content := some { Typ := "text", Text := choice.Message.Content } }]
      else []
    .ok { result with
      Output := { result.Output with
        Items := textItems ++ toolCallItems resp.ID 0 choice.Message.ToolCalls } }

/-- The resource of a content block when the block passes the guard of
`convertContent` (`translate.go`, lines 175-177): type `resource`, a resource
present, annotations present, and `assistant` in the audience. -/
def assistantResource (content : Content) : Option EmbeddedResource :=
  if content.Typ = "resource" then
    match content.Resource with
    | none => none
    | some res =>
      match res.Annotations with
      | none => none
      | some ann => if "assistant" ∈ ann.Audience then some res else none
  else none

/-- The function `convertContent` of `translate.go`; `textMimeTypes` stands for
membership in the table `types.TextMimeTypes` and `base64Decode` for the bytes
`base64.StdEncoding.DecodeString` returns, read as a string. -/
def convertContent (textMimeTypes : String → Bool) (base64Decode : String → String)
    (content : Content) : String :=
  if content.Typ = "text" ∨ content.Typ = "" then content.Text
  else
    match assistantResource content with
    | some res =>
      if textMimeTypes res.MIMEType ∧ res.Blob ≠ "" then base64Decode res.Blob
      else if textMimeTypes res.MIMEType ∧ res.Text ≠ "" then res.Text
      else "[Resource: " ++ res.URI ++ "]"
    | none =>
      if content.Typ = "image" then "[Image content not supported in text format]"
      else ""

/-- The tool-choice branch of `toRequest` (`translate.go`, lines 90-108). -/
def convertToolChoice (toolChoice : String) : AnyValue :=
  if toolChoice ≠ "" then
    if toolChoice = "auto" then .str "auto"
    else if toolChoice = "none" then .str "none"
    else if toolChoice = "required" then .str "required"
    else .object [("type", .str "function"),
                  ("function", .object [("name", .str toolChoice)])]
  else .null

/-- The content of the tool-role message of a tool result (`translate.go`,
lines 148-156): the text blocks, a newline before each one that follows a
non-empty accumulation. -/
def resultContent : String → List Content → String
  | acc, [] => acc
  | acc, content :: rest =>
    if content.Typ = "text" then
      resultContent ((if acc ≠ "" then acc ++ "\n" else acc) ++ content.Text) rest
    else resultContent acc rest

/-- The body of the loop over the items of a generic message (`translate.go`,
lines 120-164), on the wire messages built so far: a content item appends a
message with the role of the enclosing message unless its text converts to the
empty string, a tool call appends an assistant message, a tool result appends
a tool message. -/
def appendItem (textMimeTypes : String → Bool) (base64Decode : String → String)
    (role : String) (messages : List Message) (input : CompletionItem) : List Message :=
  let messages1 : List Message :=
    match input.Content with
    | some content =>
      let text := convertContent textMimeTypes base64Decode content
      if text ≠ "" then messages ++ [{ Role := role, Content := text }] else messages
    | none => messages
  let messages2 : List Message :=
    match input.ToolCall with
    | some call =>
      messages1 ++
        [{ Role := "assistant",
           ToolCalls := [{ ID := call.CallID, Typ := "function",
                           Function := { Name := call.Name, Arguments := call.Arguments } }] }]
    | none => messages1
  match input.ToolCallResult with
  | some result =>
    messages2 ++
      [{ Role := "tool", Content := resultContent "" result.Output.Content,
         ToolCallID := result.CallID }]
  | none => messages2

/-- The body of the loop over the generic messages (`translate.go`, lines
119-165): the loop over the items of one message. -/
def appendMessage (textMimeTypes : String → Bool) (base64Decode : String → String)
    (messages : List Message) (msg : GenericMessage) : List Message :=
  msg.Items.foldl (appendItem textMimeTypes base64Decode msg.Role) messages

/-- The function `toRequest` of `translate.go`; `parseFloat` stands for
`json.Number.Float64` (its value, the error being dropped). -/
def toRequest (parseFloat : String → Float64) (textMimeTypes : String → Bool)
    (base64Decode : String → String) (req : CompletionRequest) : Except String Request :=
  let maxTokens : Int := if req.MaxTokens = 0 then 4096 else req.MaxTokens
  let temp : Float64 := match req.Temperature with
    | some n => parseFloat n
    | none => {}
  let topP : Float64 := match req.TopP with
    | some n => parseFloat n
    | none => {}
  let tools : List Tool := req.Tools.map fun tool =>
    { Typ := "function",
      Function := { Name := tool.Name, Description := tool.Description,
                    Parameters := tool.Parameters } }
  let system : List Message :=
    if trimSpace req.SystemPrompt ≠ "" then
      [{ Role := "system", Content := trimSpace req.SystemPrompt }]
    else []
  .ok { Model := req.Model, MaxTokens := maxTokens, Temperature := temp, TopP := topP,
        Tools := tools, ToolChoice := convertToolChoice req.ToolChoice,
        Messages := req.Input.foldl (appendMessage textMimeTypes base64Decode) system }

/-! ## Vocabulary of the statements -/

/-- The payload the loop reads off a data line (`client.go`, lines 103-104). -/
def payloadOf (line : String) : String :=
  trimSpace (trimPrefix line "data: ")

/-- A line the loop decodes into the chunk `chunk`: it has the data prefix, its
payload is not the end-of-stream sentinel, and the payload decodes. -/
def IsChunkLine (decode : String → Option StreamChunk) (line : String)
    (chunk : StreamChunk) : Prop :=
  hasPrefix line "data: " = true ∧ payloadOf line ≠ "[DONE]" ∧
    decode (payloadOf line) = some chunk

/-- The chunks the loop gets to process: the decodable payloads of the data
lines, up to the first `[DONE]`. -/
def parsedChunks (decode : String → Option StreamChunk) : List String → List StreamChunk
  | [] => []
  | line :: rest =>
    if !hasPrefix line "data: " then parsedChunks decode rest
    else if payloadOf line = "[DONE]" then []
    else
      match decode (payloadOf line) with
      | none => parsedChunks decode rest
      | some chunk => chunk :: parsedChunks decode rest

/-- The loop body run over a list of decoded chunks. -/
def foldChunks (agentName : String) :
    LoopState → List StreamChunk → Except RuntimeError LoopState
  | st, [] => .ok st
  | st, chunk :: rest =>
    match processChunk agentName st chunk with
    | .error e => .error e
    | .ok st1 => foldChunks agentName st1 rest

/-- The tool calls accumulated on the assembled message (none while no choice
exists). -/
def Response.toolCalls (r : Response) : List ToolCall :=
  match r.Choices with
  | c :: _ => c.Message.ToolCalls
  | [] => []

/-- The finish reason recorded on the assembled choice (empty while no choice
exists). -/
def Response.finishReason (r : Response) : String :=
  match r.Choices with
  | c :: _ => c.FinishReason
  | [] => ""

/-- The fragment updates of `applyFragment` run over a list of fragments. -/
def accumulate : List ToolCall → List ToolCall → Except RuntimeError (List ToolCall)
  | tcs, [] => .ok tcs
  | tcs, tc :: rest =>
    match applyFragment tcs tc with
    | .error e => .error e
    | .ok tcs1 => accumulate tcs1 rest

/-- The tool-call fragments of the first choice of a chunk. -/
def fragmentsOf (chunk : StreamChunk) : List ToolCall :=
  match chunk.Choices with
  | choice :: _ => choice.Delta.ToolCalls
  | [] => []

/-- The delta text of the first choice of a chunk. -/
def deltaTextOf (chunk : StreamChunk) : String :=
  match chunk.Choices with
  | choice :: _ => choice.Delta.Content
  | [] => ""

/-- The finish reason of the first choice of a chunk. -/
def finishOf (chunk : StreamChunk) : String :=
  match chunk.Choices with
  | choice :: _ => choice.FinishReason
  | [] => ""

/-- The first non-empty string of a list, or the empty string. -/
def firstNonEmpty : List String → String
  | [] => ""
  | s :: rest => if s ≠ "" then s else firstNonEmpty rest

/-- The last non-empty string of a list, or the empty string. -/
def lastNonEmpty (l : List String) : String :=
  firstNonEmpty l.reverse

/-- A decoder for a handful of payloads, to run the loop on concrete streams;
every other payload is malformed. -/
def sampleDecode (payload : String) : Option StreamChunk :=
  match payload with
  | "hel" => some { ID := "r1", Model := "m", Choices := [{ Delta := { Content := "Hel" } }] }
  | "lo" => some { ID := "r1", Model := "m", Choices := [{ Delta := { Content := "lo" } }] }
  | "anon" => some { ID := "", Model := "m1", Choices := [{ Delta := { Content := "a" } }] }
  | "named" => some { ID := "r", Model := "m2", Choices := [{ Delta := { Content := "b" } }] }
  | "stop" => some { ID := "r1", Model := "m",
                     Choices := [{ Delta := { Content := "a" }, FinishReason := "stop" }] }
  | "a1" => some { ID := "r1", Model := "m", Choices := [{ Delta := { ToolCalls :=
      [{ ID := "call_a", Typ := "function", Index := 0,
         Function := { Name := "f", Arguments := "A1" } }] } }] }
  | "a2" => some { ID := "r1", Model := "m", Choices := [{ Delta := { ToolCalls :=
      [{ Index := 0, Function := { Arguments := "A2" } }] } }] }
  | "b1" => some { ID := "r1", Model := "m", Choices := [{ Delta := { ToolCalls :=
      [{ ID := "call_b", Typ := "function", Index := 1,
         Function := { Name := "g", Arguments := "B1" } }] } }] }
  | "b2" => some { ID := "r1", Model := "m", Choices := [{ Delta := { ToolCalls :=
      [{ Index := 1, Function := { Arguments := "B2" } }] } }] }
  | "b3" => some { ID := "r1", Model := "m", Choices := [{ Delta := { ToolCalls :=
      [{ Index := 1, Function := { Arguments := "B3" } }] } }] }
  | "fin" => some { ID := "r1", Model := "m", Choices := [{ FinishReason := "stop" }] }
  | "s5a" => some { ID := "r1", Model := "m", Choices := [{ Delta := { ToolCalls :=
      [{ ID := "call_a", Typ := "function", Index := 5,
         Function := { Name := "f", Arguments := "A1" } }] } }] }
  | "s5b" => some { ID := "r1", Model := "m", Choices := [{ Delta := { ToolCalls :=
      [{ Index := 5, Function := { Arguments := "A2" } }] } }] }
  | _ => none

/-! ## The observable part of the loop state -/

/-- The response with the tool calls of its first choice `c` replaced. -/
def putToolCalls (resp : Response) (c : Choice) (rest : List Choice)
    (tcs : List ToolCall) : Response :=
  { resp with Choices := { c with Message := { c.Message with ToolCalls := tcs } } :: rest }

/-- What the statements observe of a loop state: whether an assembled choice
exists, the response ID and model, the assembled text, finish reason and tool
calls, and the events sent. -/
@[ext]
structure View where
  hasChoice : Bool := false
  ID : String := ""
  Model : String := ""
  content : String := ""
  finish : String := ""
  toolCalls : List ToolCall := []
  events : List CompletionProgress := []
deriving DecidableEq, Repr

/-- The observable part of a loop state. -/
def viewOf (st : LoopState) : View :=
  { hasChoice := !st.resp.Choices.isEmpty, ID := st.resp.ID, Model := st.resp.Model,
    content := st.resp.GetContent, finish := st.resp.finishReason,
    toolCalls := st.resp.toolCalls, events := st.events }

/-- The event of a content delta, from the observable state. -/
def View.contentEvent (agentName : String) (v : View) (text : String) : CompletionProgress :=
  { Model := v.Model, Agent := agentName, MessageID := v.ID,
    Item := { ID := v.ID ++ "-0", Partial := true, HasMore := true,
              Content := some { Typ := "text", Text := text } } }

/-- The event of a tool-call fragment, from the observable state. -/
def View.toolEvent (agentName : String) (v : View) (tc : ToolCall) : CompletionProgress :=
  { Model := v.Model, Agent := agentName, MessageID := v.ID,
    Item := { ID := v.ID ++ "-" ++ formatInt tc.Index, Partial := true, HasMore := true,
              ToolCall := some { CallID := tc.ID, Name := tc.Function.Name,
                                 Arguments := tc.Function.Arguments } } }

/-- The effect of `adoptID` on the observable state. -/
def View.adopt (v : View) (chunk : StreamChunk) : View :=
  if v.ID = "" then { v with ID := chunk.ID, Model := chunk.Model } else v

/-- The effect of `stepContent` on the observable state. -/
def View.content1 (agentName : String) (v : View) (text : String) : View :=
  if text ≠ "" then
    { v with hasChoice := true, content := v.content ++ text, finish := "", toolCalls := [],
             events := v.events ++ [v.contentEvent agentName text] }
  else v

/-- The effect of `stepToolCalls` on the observable state. -/
def View.tools (agentName : String) (v : View) (frags : List ToolCall) :
    Except RuntimeError View :=
  if frags.length > 0 then
    match accumulate v.toolCalls frags with
    | .error e => .error e
    | .ok tcs =>
      .ok { v with hasChoice := true, toolCalls := tcs,
                   events := v.events ++ frags.map (v.toolEvent agentName) }
  else .ok v

/-- The effect of `stepFinish` on the observable state. -/
def View.finish1 (v : View) (reason : String) : Except RuntimeError View :=
  if reason ≠ "" then
    if v.hasChoice then .ok { v with finish := reason } else .error (.indexOutOfRange 0 0)
  else .ok v

/-- The effect of `processChunk` on the observable state. -/
def View.step (agentName : String) (v : View) (chunk : StreamChunk) :
    Except RuntimeError View :=
  match chunk.Choices with
  | [] => .ok (v.adopt chunk)
  | choice :: _ =>
    match ((v.adopt chunk).content1 agentName choice.Delta.Content).tools agentName
        choice.Delta.ToolCalls with
    | .error e => .error e
    | .ok v2 => v2.finish1 choice.FinishReason

/-- The effect of `foldChunks` on the observable state. -/
def View.fold (agentName : String) : View → List StreamChunk → Except RuntimeError View
  | v, [] => .ok v
  | v, chunk :: rest =>
    match v.step agentName chunk with
    | .error e => .error e
    | .ok v1 => View.fold agentName v1 rest

/-- The model name the loop ends with when it starts with an empty ID and the
model `m0`: the model of the first chunk with a non-empty ID, and without such
a chunk the model of the last chunk (`m0` when there is no chunk). -/
def adoptedModel (m0 : String) : List StreamChunk → String
  | [] => m0
  | chunk :: rest => if chunk.ID ≠ "" then chunk.Model else adoptedModel chunk.Model rest

/-! ## Vocabulary of the tool-call statements -/

/-- The slot a fragment allocates (`client.go`, lines 164-171): its ID, type,
name and arguments; the index is not copied. -/
def newSlot (tc : ToolCall) : ToolCall :=
  { ID := tc.ID, Typ := tc.Typ,
    Function := { Name := tc.Function.Name, Arguments := tc.Function.Arguments } }

/-- A slot with more argument text appended (`client.go`, line 173). -/
def appendArgs (args : String) (slot : ToolCall) : ToolCall :=
  { slot with Function :=
      { slot.Function with Arguments := slot.Function.Arguments ++ args } }

/-- The concatenation of a list of strings, in order. -/
def concatAll : List String → String
  | [] => ""
  | s :: rest => s ++ concatAll rest

/-- The fragments arrive densely from `n` allocated slots on: each index is
non-negative and either below the number of slots allocated so far or equal to
it (and then allocates the next slot). -/
def dense : Nat → List ToolCall → Bool
  | _, [] => true
  | n, tc :: rest =>
    decide (0 ≤ tc.Index) && decide (tc.Index ≤ (n : Int)) &&
      dense (if tc.Index = (n : Int) then n + 1 else n) rest

/-- The number of slots after a dense arrival of fragments on `n` slots. -/
def denseCount : Nat → List ToolCall → Nat
  | n, [] => n
  | n, tc :: rest => denseCount (if tc.Index = (n : Int) then n + 1 else n) rest

/-- The fragments of a list that carry the index `i`, in arrival order. -/
def withIndex (i : Int) (frags : List ToolCall) : List ToolCall :=
  frags.filter fun tc => tc.Index = i

/-- A slot after the fragments addressed to it: without a slot the first
fragment allocates one, with a slot each fragment appends its arguments. -/
def mergeSlot : Option ToolCall → List ToolCall → Option ToolCall
  | slot, [] => slot
  | none, tc :: rest => mergeSlot (some (newSlot tc)) rest
  | some slot, tc :: rest => mergeSlot (some (appendArgs tc.Function.Arguments slot)) rest

/-- The tool call the fragments with index `i` assemble, in the spec's words:
ID, type and name of the first such fragment, and the argument texts of all of
them joined in arrival order; none when no fragment has the index. -/
def assembled (frags : List ToolCall) (i : Int) : Option ToolCall :=
  match withIndex i frags with
  | [] => none
  | tc :: rest =>
    some { ID := tc.ID, Typ := tc.Typ,
           Function := { Name := tc.Function.Name,
                         Arguments := concatAll ((tc :: rest).map (·.Function.Arguments)) } }

/-- The distinct indices of a list, in the order of first appearance, after
the already seen `seen`. -/
def firstSeenFrom : List Int → List Int → List Int
  | seen, [] => seen
  | seen, i :: rest => firstSeenFrom (if i ∈ seen then seen else seen ++ [i]) rest

/-- The distinct indices of a list, in the order of first appearance. -/
def firstSeen (indices : List Int) : List Int :=
  firstSeenFrom [] indices

/-- All tool-call fragments of a list of chunks, in arrival order. -/
def allFragments (chunks : List StreamChunk) : List ToolCall :=
  chunks.flatMap fragmentsOf

/-- Every finish reason arrives when the assembled message exists: in a chunk
that carries delta text or fragments, or after such a chunk (`has` tells
whether the message exists at the start). -/
def finishAfterMessage : Bool → List StreamChunk → Bool
  | _, [] => true
  | has, chunk :: rest =>
    (decide (finishOf chunk = "") || has || decide (deltaTextOf chunk ≠ "") ||
        decide (fragmentsOf chunk ≠ [])) &&
      finishAfterMessage
        (has || decide (deltaTextOf chunk ≠ "") || decide (fragmentsOf chunk ≠ [])) rest

/-- The observable state after a chunk is processed without failure, `tcs`
being the tool-call list the fragments of the chunk leave. -/
def View.next (agentName : String) (v : View) (chunk : StreamChunk)
    (tcs : List ToolCall) : View :=
  { hasChoice := v.hasChoice || decide (deltaTextOf chunk ≠ "") ||
      decide (fragmentsOf chunk ≠ []),
    ID := (v.adopt chunk).ID,
    Model := (v.adopt chunk).Model,
    content := v.content ++ deltaTextOf chunk,
    finish := if finishOf chunk ≠ "" then finishOf chunk
              else if deltaTextOf chunk ≠ "" then "" else v.finish,
    toolCalls := tcs,
    events := v.events ++
      (if deltaTextOf chunk ≠ "" then
        [(v.adopt chunk).contentEvent agentName (deltaTextOf chunk)] else []) ++
      (fragmentsOf chunk).map ((v.adopt chunk).toolEvent agentName) }

/-- A sample stream for the sample decoder: the fragments of two tool calls,
arriving with the indices 0, 1, 0, 1, 1. -/
def sampleToolLines : List String :=
  ["data: a1", "data: b1", "data: a2", "data: b2", "data: b3"]

/-! ## Vocabulary of the progress-event statements -/

/-- The text fragments of the events with the item ID `itemID`, joined in
emission order. -/
def textFor (itemID : String) (events : List CompletionProgress) : String :=
  concatAll ((events.filter fun e => e.Item.ID = itemID).filterMap
    fun e => e.Item.Content.map (·.Text))

/-- The argument fragments of the tool-call events with the item ID `itemID`,
joined in emission order. -/
def argsFor (itemID : String) (events : List CompletionProgress) : String :=
  concatAll ((events.filter fun e => e.Item.ID = itemID).filterMap
    fun e => e.Item.ToolCall.map (·.Arguments))

/-- No chunk carries delta text once a fragment has arrived in an earlier
chunk (`seen` tells whether one arrived before the list). -/
def textBeforeFragments : Bool → List StreamChunk → Bool
  | _, [] => true
  | seen, chunk :: rest =>
    (decide (deltaTextOf chunk = "") || !seen) &&
      textBeforeFragments (seen || decide (fragmentsOf chunk ≠ [])) rest

/-- The events a chunk makes the loop send while the response ID and model are
those of `v`: one for a non-empty delta text, then one per fragment. -/
def chunkEvents (agentName : String) (v : View) (chunk : StreamChunk) :
    List CompletionProgress :=
  (if deltaTextOf chunk ≠ "" then [v.contentEvent agentName (deltaTextOf chunk)] else []) ++
    (fragmentsOf chunk).map (v.toolEvent agentName)

/-! ## Vocabulary of the translator statements -/

/-- The wire messages one item of a generic message with the role `role`
produces, in the spec's words: for its content one message with that role and
the converted text, when that text is non-empty; for its tool call one
assistant message with a single tool call of type `function`; for its tool
result one tool message. -/
def itemMessages (textMimeTypes : String → Bool) (base64Decode : String → String)
    (role : String) (input : CompletionItem) : List Message :=
  (match input.Content with
   | some content =>
     if convertContent textMimeTypes base64Decode content ≠ "" then
       [{ Role := role, Content := convertContent textMimeTypes base64Decode content }]
     else []
   | none => []) ++
  (match input.ToolCall with
   | some call =>
     [{ Role := "assistant",
        ToolCalls := [{ ID := call.CallID, Typ := "function",
                        Function := { Name := call.Name, Arguments := call.Arguments } }] }]
   | none => []) ++
  (match input.ToolCallResult with
   | some result =>
     [{ Role := "tool", Content := resultContent "" result.Output.Content,
        ToolCallID := result.CallID }]
   | none => [])

/-- The wire messages the input messages produce: those of every item of
every message, in order. -/
def inputMessages (textMimeTypes : String → Bool) (base64Decode : String → String)
    (input : List GenericMessage) : List Message :=
  input.flatMap fun msg =>
    msg.Items.flatMap fun item => itemMessages textMimeTypes base64Decode msg.Role item

/-- The optional system message of `toRequest` (`translate.go`, lines 110-116),
in the spec's words: present when the prompt is non-blank after trimming. -/
def systemMessages (prompt : String) : List Message :=
  if trimSpace prompt ≠ "" then [{ Role := "system", Content := trimSpace prompt }] else []

/-- The strings of a list joined with one newline between consecutive ones. -/
def joinLines : List String → String
  | [] => ""
  | [s] => s
  | s :: rest => s ++ "\n" ++ joinLines rest

/-- The texts of the text-typed content blocks of a list, in order. -/
def textBlocks (blocks : List Content) : List String :=
  (blocks.filter fun content => content.Typ = "text").map (·.Text)

/-- A stand-in for the table `types.TextMimeTypes` on concrete inputs: plain
text and JSON are text types. -/
def sampleTextMime (mime : String) : Bool :=
  mime = "text/plain" ∨ mime = "application/json"

/-- A stand-in for base64 decoding on concrete inputs: two known encodings. -/
def sampleBase64 (blob : String) : String :=
  if blob = "aGk=" then "hi" else if blob = "b2s=" then "ok" else ""

/-- A stand-in for `json.Number.Float64` on concrete inputs. -/
def sampleFloat (_numeral : String) : Float64 :=
  {}

/-- The generic item of the accumulated tool call `tc` at position `i`, in the
spec's words: item ID `<responseID>-<i>`, and call ID, name and arguments of
the tool call. -/
def toolCallItem (respID : String) (i : Nat) (tc : ToolCall) : CompletionItem :=
  { ID := respID ++ "-" ++ formatInt i,
    ToolCall := some { CallID := tc.ID, Name := tc.Function.Name,
                       Arguments := tc.Function.Arguments } }

/-- The generic text item of a response, in the spec's words: item ID
`<responseID>-0` and the text as content of type `text`. -/
def textItem (respID : String) (text : String) : CompletionItem :=
  { ID := respID ++ "-0", Content := some { Typ := "text", Text := text } }

/-- A sample accumulated response: the text `Hi` and one tool call. -/
def sampleResponse : Response :=
  { ID := "r1", Model := "m",
    Choices := [{ Message := { Role := "assistant", Content := "Hi", ToolCalls :=
      [{ ID := "call_a", Typ := "function",
         Function := { Name := "f", Arguments := "A" } }] } }] }

/-- The state after the assistant message is ensured (`client.go`, lines
154-160): a state without choice gets one empty assistant message. -/
def ensureMessage (st : LoopState) : LoopState :=
  if st.resp.Choices.length = 0 then
    { st with resp := { st.resp with Choices := [{ Message := { Role := "assistant" } }] } }
  else st

/-- The state in which the loop body, started in `st` on a chunk with the first
choice `choice`, reaches the loop over the fragments (`client.go`, lines
116-160): the ID adopted, the content branch run, the message ensured. -/
def stateAtFragments (agentName : String) (st : LoopState) (chunk : StreamChunk)
    (choice : Choice) : LoopState :=
  ensureMessage (stepContent agentName { st with resp := adoptID st.resp chunk } choice)

/-- A string is blank: every character of it is white space. -/
def blank (s : String) : Bool :=
  s.data.all isSpace

/-- The string `t` is the string `s` without its leading and trailing white
space: `s` is `t` between two runs of white space, and `t` neither starts nor
ends with white space. -/
def IsTrimOf (t s : String) : Prop :=
  ∃ lead trail : List Char, s.data = lead ++ t.data ++ trail ∧
    (∀ c ∈ lead, isSpace c = true) ∧ (∀ c ∈ trail, isSpace c = true) ∧
    (∀ c ∈ t.data.head?, isSpace c = false) ∧ (∀ c ∈ t.data.getLast?, isSpace c = false)

/-! ## Library strings: prefix and payload -/

theorem hasPrefix_append (p s : String) : hasPrefix (p ++ s) p = true := by
  simp [hasPrefix, String.data_append]

theorem trimPrefix_append (p s : String) : trimPrefix (p ++ s) p = s := by
  simp [trimPrefix, hasPrefix_append, String.data_append]

theorem payloadOf_data (s : String) : payloadOf ("data: " ++ s) = trimSpace s := by
  simp [payloadOf, trimPrefix_append]

/-! ## The loop, line by line -/

theorem streamLoop_nil (decode : String → Option StreamChunk) (agentName : String)
    (st : LoopState) : streamLoop decode agentName st [] = .ok st := rfl

theorem streamLoop_skip (decode : String → Option StreamChunk) (agentName : String)
    (st : LoopState) (line : String) (rest : List String)
    (h : hasPrefix line "data: " = false) :
    streamLoop decode agentName st (line :: rest) = streamLoop decode agentName st rest := by
  simp [streamLoop, h]

theorem streamLoop_done (decode : String → Option StreamChunk) (agentName : String)
    (st : LoopState) (line : String) (rest : List String)
    (h : hasPrefix line "data: " = true) (hd : payloadOf line = "[DONE]") :
    streamLoop decode agentName st (line :: rest) = .ok st := by
  simp [streamLoop, h, payloadOf] at *
  simp [hd]

theorem streamLoop_malformed (decode : String → Option StreamChunk) (agentName : String)
    (st : LoopState) (line : String) (rest : List String)
    (h : hasPrefix line "data: " = true) (hd : payloadOf line ≠ "[DONE]")
    (hp : decode (payloadOf line) = none) :
    streamLoop decode agentName st (line :: rest) = streamLoop decode agentName st rest := by
  simp only [payloadOf] at hd hp
  simp [streamLoop, h, hd, hp]

theorem streamLoop_chunk (decode : String → Option StreamChunk) (agentName : String)
    (st : LoopState) (line : String) (rest : List String) (chunk : StreamChunk)
    (h : IsChunkLine decode line chunk) :
    streamLoop decode agentName st (line :: rest) =
      match processChunk agentName st chunk with
      | .error e => .error e
      | .ok st1 => streamLoop decode agentName st1 rest := by
  obtain ⟨h1, h2, h3⟩ := h
  simp only [payloadOf] at h2 h3
  simp [streamLoop, h1, h2, h3]

theorem streamLoop_eq_foldChunks (decode : String → Option StreamChunk)
    (agentName : String) (lines : List String) (st : LoopState) :
    streamLoop decode agentName st lines
      = foldChunks agentName st (parsedChunks decode lines) := by
  induction lines generalizing st with
  | nil => rfl
  | cons line rest ih =>
    by_cases h : hasPrefix line "data: " = true
    · by_cases hd : payloadOf line = "[DONE]"
      · rw [streamLoop_done decode agentName st line rest h hd]
        simp [parsedChunks, h, hd, foldChunks]
      · cases hp : decode (payloadOf line) with
        | none =>
          rw [streamLoop_malformed decode agentName st line rest h hd hp, ih]
          simp [parsedChunks, h, hd, hp]
        | some chunk =>
          rw [streamLoop_chunk decode agentName st line rest chunk ⟨h, hd, hp⟩]
          simp only [parsedChunks, h, hd, hp, foldChunks]
          cases processChunk agentName st chunk with
          | error e => simp
          | ok st1 => simp [ih]
    · have h0 : hasPrefix line "data: " = false := by simpa using h
      rw [streamLoop_skip decode agentName st line rest h0, ih]
      simp [parsedChunks, h0]

theorem parsedChunks_done_cut (decode : String → Option StreamChunk)
    (pre post : List String) :
    parsedChunks decode (pre ++ "data: [DONE]" :: post) = parsedChunks decode pre := by
  induction pre with
  | nil =>
    have h1 : hasPrefix "data: [DONE]" "data: " = true := by decide
    have h2 : payloadOf "data: [DONE]" = "[DONE]" := by decide
    simp [parsedChunks, h1, h2]
  | cons line rest ih =>
    simp only [List.cons_append, parsedChunks, List.append_eq, ih]

theorem parsedChunks_malformed_insert (decode : String → Option StreamChunk)
    (payload : String) (hd : trimSpace payload ≠ "[DONE]")
    (hp : decode (trimSpace payload) = none) (pre post : List String) :
    parsedChunks decode (pre ++ ("data: " ++ payload) :: post)
      = parsedChunks decode (pre ++ post) := by
  induction pre with
  | nil =>
    simp [parsedChunks, hasPrefix_append, payloadOf_data, hd, hp]
  | cons line rest ih =>
    simp only [List.cons_append, parsedChunks, List.append_eq, ih]

theorem complete_eq (decode : String → Option StreamChunk) (agentName : String)
    (lines : List String) :
    complete decode agentName { lines := lines, err := none }
      = (streamLoop decode agentName {} lines).map
          (fun st => { result := .ok st.resp, events := st.events }) := by
  simp only [complete]
  cases streamLoop decode agentName {} lines <;> rfl

/-! ## The loop body on the observable state -/

theorem adoptID_choices (resp : Response) (chunk : StreamChunk) :
    (adoptID resp chunk).Choices = resp.Choices := by
  unfold adoptID; split <;> rfl

theorem viewOf_adopt (st : LoopState) (chunk : StreamChunk) :
    viewOf { st with resp := adoptID st.resp chunk } = (viewOf st).adopt chunk := by
  simp only [viewOf, View.adopt, adoptID]
  by_cases h : st.resp.ID = "" <;>
    simp [h, Response.GetContent, Response.finishReason, Response.toolCalls]

theorem viewOf_stepContent (agentName : String) (st : LoopState) (choice : Choice) :
    viewOf (stepContent agentName st choice)
      = (viewOf st).content1 agentName choice.Delta.Content := by
  simp only [stepContent, View.content1]
  by_cases h : choice.Delta.Content = ""
  · simp [h]
  · simp [h, viewOf, Response.GetContent, Response.finishReason, Response.toolCalls,
      contentProgress, View.contentEvent]

theorem stepFragment_eq (agentName : String) (st : LoopState) (c : Choice)
    (rest : List Choice) (tc : ToolCall) (h : st.resp.Choices = c :: rest) :
    stepFragment agentName st tc =
      (applyFragment c.Message.ToolCalls tc).map fun tcs =>
        { resp := putToolCalls st.resp c rest tcs,
          events := st.events ++ [toolCallProgress agentName st.resp tc] } := by
  simp only [stepFragment, h]
  cases applyFragment c.Message.ToolCalls tc with
  | error e => rfl
  | ok tcs => rfl

theorem stepFragments_eq (agentName : String) (frags : List ToolCall) (st : LoopState)
    (c : Choice) (rest : List Choice) (h : st.resp.Choices = c :: rest) :
    stepFragments agentName st frags =
      (accumulate c.Message.ToolCalls frags).map fun tcs =>
        { resp := putToolCalls st.resp c rest tcs,
          events := st.events ++ frags.map (toolCallProgress agentName st.resp) } := by
  induction frags generalizing st c with
  | nil =>
    simp only [stepFragments, accumulate, Except.map, List.map_nil, List.append_nil]
    congr 1
    cases st with
    | mk resp events =>
      simp only [putToolCalls] at *
      cases resp
      simp_all
  | cons tc more ih =>
    simp only [stepFragments, accumulate, stepFragment_eq agentName st c rest tc h]
    cases hf : applyFragment c.Message.ToolCalls tc with
    | error e => rfl
    | ok tcs =>
      simp only [Except.map]
      rw [ih _ { c with Message := { c.Message with ToolCalls := tcs } } (by simp [putToolCalls])]
      cases accumulate tcs more with
      | error e => rfl
      | ok out =>
        simp [Except.map, putToolCalls, toolCallProgress]

theorem viewOf_stepToolCalls (agentName : String) (st : LoopState) (choice : Choice) :
    (stepToolCalls agentName st choice).map viewOf
      = (viewOf st).tools agentName choice.Delta.ToolCalls := by
  simp only [stepToolCalls, View.tools]
  by_cases hf : choice.Delta.ToolCalls.length > 0
  · simp only [hf, if_true]
    cases hc : st.resp.Choices with
    | nil =>
      rw [stepFragments_eq agentName _ _ { Message := { Role := "assistant" } } []
        (by simp [hc])]
      simp only [viewOf, hc, Response.toolCalls]
      cases accumulate [] choice.Delta.ToolCalls with
      | error e => rfl
      | ok out =>
        delta toolCallProgress View.toolEvent
        simp [Except.map, putToolCalls, Response.GetContent, Response.finishReason,
          Response.toolCalls, hc, viewOf]
    | cons c rest =>
      rw [stepFragments_eq agentName _ _ c rest (by simp [hc])]
      simp only [viewOf, hc, Response.toolCalls]
      cases accumulate c.Message.ToolCalls choice.Delta.ToolCalls with
      | error e => rfl
      | ok out =>
        delta toolCallProgress View.toolEvent
        simp [Except.map, putToolCalls, Response.GetContent, Response.finishReason,
          Response.toolCalls, hc, viewOf]
  · simp [hf, Except.map]

theorem viewOf_stepFinish (st : LoopState) (choice : Choice) :
    (stepFinish st choice).map viewOf = (viewOf st).finish1 choice.FinishReason := by
  simp only [stepFinish, View.finish1]
  by_cases h : choice.FinishReason = ""
  · simp [h, Except.map]
  · cases hc : st.resp.Choices with
    | nil => simp [h, Except.map, viewOf, hc]
    | cons c rest =>
      simp [h, Except.map, viewOf, hc, Response.GetContent, Response.finishReason,
        Response.toolCalls]

theorem viewOf_processChunk (agentName : String) (st : LoopState) (chunk : StreamChunk) :
    (processChunk agentName st chunk).map viewOf = (viewOf st).step agentName chunk := by
  simp only [processChunk, View.step]
  cases chunk.Choices with
  | nil => simp [Except.map, viewOf_adopt]
  | cons choice rest =>
    simp only
    rw [← viewOf_adopt, ← viewOf_stepContent, ← viewOf_stepToolCalls]
    cases stepToolCalls agentName
        (stepContent agentName { st with resp := adoptID st.resp chunk } choice) choice with
    | error e => rfl
    | ok st2 =>
      simp only [Except.map]
      rw [← viewOf_stepFinish]
      rfl

theorem viewOf_foldChunks (agentName : String) (chunks : List StreamChunk) (st : LoopState) :
    (foldChunks agentName st chunks).map viewOf = (viewOf st).fold agentName chunks := by
  induction chunks generalizing st with
  | nil => rfl
  | cons chunk rest ih =>
    simp only [foldChunks, View.fold]
    rw [← viewOf_processChunk]
    cases processChunk agentName st chunk with
    | error e => rfl
    | ok st1 => simp only [Except.map]; exact ih st1

theorem viewOf_streamLoop (decode : String → Option StreamChunk) (agentName : String)
    (lines : List String) (st : LoopState) :
    (streamLoop decode agentName st lines).map viewOf
      = (viewOf st).fold agentName (parsedChunks decode lines) := by
  rw [streamLoop_eq_foldChunks, viewOf_foldChunks]

theorem except_map_eq_ok {ε α β : Type} (f : α → β) (x : Except ε α) (b : β)
    (h : x.map f = .ok b) : ∃ a, x = .ok a ∧ f a = b := by
  cases x with
  | error e => simp [Except.map] at h
  | ok a => exact ⟨a, rfl, by simpa [Except.map] using h⟩

theorem except_map_eq_error {ε α β : Type} (f : α → β) (x : Except ε α) (e : ε)
    (h : x.map f = .error e) : x = .error e := by
  cases x with
  | error e1 => simpa [Except.map] using h
  | ok a => simp [Except.map] at h

theorem parsedChunks_chunk (decode : String → Option StreamChunk) (line : String)
    (rest : List String) (chunk : StreamChunk) (h : IsChunkLine decode line chunk) :
    parsedChunks decode (line :: rest) = chunk :: parsedChunks decode rest := by
  obtain ⟨h1, h2, h3⟩ := h
  simp [parsedChunks, h1, h2, h3]

@[simp] theorem View.adopt_hasChoice (v : View) (chunk : StreamChunk) :
    (v.adopt chunk).hasChoice = v.hasChoice := by
  unfold View.adopt; split <;> rfl

@[simp] theorem View.adopt_content (v : View) (chunk : StreamChunk) :
    (v.adopt chunk).content = v.content := by
  unfold View.adopt; split <;> rfl

@[simp] theorem View.adopt_finish (v : View) (chunk : StreamChunk) :
    (v.adopt chunk).finish = v.finish := by
  unfold View.adopt; split <;> rfl

@[simp] theorem View.adopt_toolCalls (v : View) (chunk : StreamChunk) :
    (v.adopt chunk).toolCalls = v.toolCalls := by
  unfold View.adopt; split <;> rfl

@[simp] theorem View.adopt_events (v : View) (chunk : StreamChunk) :
    (v.adopt chunk).events = v.events := by
  unfold View.adopt; split <;> rfl

theorem View.content1_text (agentName : String) (v : View) (text : String)
    (h : text ≠ "") :
    v.content1 agentName text =
      { v with hasChoice := true, content := v.content ++ text, finish := "",
               toolCalls := [], events := v.events ++ [v.contentEvent agentName text] } :=
  if_pos h

theorem View.content1_empty (agentName : String) (v : View) :
    v.content1 agentName "" = v := by
  simp [View.content1]

theorem View.tools_nil (agentName : String) (v : View) :
    v.tools agentName [] = .ok v := by
  simp [View.tools]

theorem View.step_text (agentName : String) (v : View) (chunk : StreamChunk)
    (ht : deltaTextOf chunk ≠ "") (hf : fragmentsOf chunk = []) :
    ∃ v1, v.step agentName chunk = .ok v1 ∧
      v1.content = v.content ++ deltaTextOf chunk ∧ v1.hasChoice = true := by
  cases hc : chunk.Choices with
  | nil => simp [deltaTextOf, hc] at ht
  | cons choice rest =>
    simp only [deltaTextOf, fragmentsOf, hc] at ht hf
    simp only [View.step, hc, deltaTextOf, View.content1_text _ _ _ ht, hf, View.tools_nil,
      View.finish1]
    by_cases hfin : choice.FinishReason = ""
    · simp [hfin]
    · simp [hfin]

/-- C7: for all line sequences `pre` and `post`, the stream loop run on
`pre ++ ["data: [DONE]"] ++ post` ends in the same outcome (same final response,
same progress events) as run on `pre` alone, from every starting state: no line
after the sentinel is processed.  The call returns the same pair for both
streams, and for a stream read without a transport failure that pair is the
accumulated response with no error, whether or not the sentinel was sent. -/
theorem streamLoop_stops_at_done (decode : String → Option StreamChunk)
    (agentName : String) (pre post : List String) :
    (∀ st, streamLoop decode agentName st (pre ++ ["data: [DONE]"] ++ post)
        = streamLoop decode agentName st pre) ∧
    complete decode agentName { lines := pre ++ ["data: [DONE]"] ++ post, err := none }
      = complete decode agentName { lines := pre, err := none } ∧
    complete decode agentName { lines := pre, err := none }
      = (streamLoop decode agentName {} pre).map
          (fun st => { result := .ok st.resp, events := st.events }) := by
  have key : ∀ st, streamLoop decode agentName st (pre ++ ["data: [DONE]"] ++ post)
      = streamLoop decode agentName st pre := by
    intro st
    rw [streamLoop_eq_foldChunks, streamLoop_eq_foldChunks, List.append_assoc,
      List.singleton_append, parsedChunks_done_cut]
  refine ⟨key, ?_, complete_eq decode agentName pre⟩
  rw [complete_eq, complete_eq, key]

/-- C8: a line `"data: <payload>"` whose payload is not `[DONE]` and fails to
decode, inserted at any position of any line sequence, changes neither the
outcome of the stream loop (final response, progress events, panic) nor what
the call returns; and with one such line between two content-delta chunks the
call returns, without error, a response whose text is the first delta text
followed by the second. -/
theorem malformed_line_is_skipped (decode : String → Option StreamChunk)
    (agentName : String) (payload : String) (hd : trimSpace payload ≠ "[DONE]")
    (hp : decode (trimSpace payload) = none) :
    (∀ st pre post, streamLoop decode agentName st (pre ++ ["data: " ++ payload] ++ post)
        = streamLoop decode agentName st (pre ++ post)) ∧
    (∀ pre post err,
      complete decode agentName { lines := pre ++ ["data: " ++ payload] ++ post, err := err }
        = complete decode agentName { lines := pre ++ post, err := err }) ∧
    (∀ line1 line2 chunk1 chunk2,
      IsChunkLine decode line1 chunk1 → IsChunkLine decode line2 chunk2 →
      deltaTextOf chunk1 ≠ "" → fragmentsOf chunk1 = [] →
      deltaTextOf chunk2 ≠ "" → fragmentsOf chunk2 = [] →
      ∃ resp events,
        complete decode agentName { lines := [line1, "data: " ++ payload, line2], err := none }
          = .ok { result := .ok resp, events := events } ∧
        resp.GetContent = deltaTextOf chunk1 ++ deltaTextOf chunk2) := by
  have key : ∀ st pre post,
      streamLoop decode agentName st (pre ++ ["data: " ++ payload] ++ post)
        = streamLoop decode agentName st (pre ++ post) := by
    intro st pre post
    rw [streamLoop_eq_foldChunks, streamLoop_eq_foldChunks, List.append_assoc,
      List.singleton_append, parsedChunks_malformed_insert decode payload hd hp]
  refine ⟨key, ?_, ?_⟩
  · intro pre post err
    simp only [complete, key]
  · intro line1 line2 chunk1 chunk2 h1 h2 ht1 hf1 ht2 hf2
    have hk := key {} [line1] [line2]
    simp only [List.singleton_append, List.cons_append, List.nil_append] at hk
    rw [complete_eq, hk]
    have hv := viewOf_streamLoop decode agentName [line1, line2] {}
    rw [parsedChunks_chunk decode line1 _ chunk1 h1,
      parsedChunks_chunk decode line2 _ chunk2 h2] at hv
    obtain ⟨v1, hv1, hc1, -⟩ := View.step_text agentName (viewOf {}) chunk1 ht1 hf1
    obtain ⟨v2, hv2, hc2, -⟩ := View.step_text agentName v1 chunk2 ht2 hf2
    simp only [parsedChunks, View.fold, hv1, hv2] at hv
    obtain ⟨st, hst, hview⟩ := except_map_eq_ok _ _ _ hv
    refine ⟨st.resp, st.events, by simp [hst, Except.map], ?_⟩
    have : st.resp.GetContent = v2.content := by rw [← hview]; rfl
    rw [this, hc2, hc1]
    simp [viewOf, Response.GetContent]

/-- Witness of C8 on a three-line stream with the sample decoder. -/
theorem malformed_line_is_skipped_witness :
    trimSpace "oops" ≠ "[DONE]" ∧ sampleDecode (trimSpace "oops") = none ∧
    streamLoop sampleDecode "agent" {} (["data: hel"] ++ ["data: " ++ "oops"] ++ ["data: lo"])
      = streamLoop sampleDecode "agent" {} (["data: hel"] ++ ["data: lo"]) :=
  ⟨by decide, by decide,
    (malformed_line_is_skipped sampleDecode "agent" "oops" (by decide) (by decide)).1
      {} ["data: hel"] ["data: lo"]⟩

@[simp] theorem View.content1_ID (agentName : String) (v : View) (text : String) :
    (v.content1 agentName text).ID = v.ID := by
  unfold View.content1; split <;> rfl

@[simp] theorem View.content1_Model (agentName : String) (v : View) (text : String) :
    (v.content1 agentName text).Model = v.Model := by
  unfold View.content1; split <;> rfl

theorem View.tools_eq (agentName : String) (v : View) (frags : List ToolCall) :
    v.tools agentName frags =
      (accumulate v.toolCalls frags).map fun tcs =>
        { v with hasChoice := v.hasChoice || !frags.isEmpty, toolCalls := tcs,
                 events := v.events ++ frags.map (v.toolEvent agentName) } := by
  cases frags with
  | nil => simp [View.tools, accumulate, Except.map]
  | cons tc rest =>
    simp only [View.tools, List.length_cons, gt_iff_lt, Nat.zero_lt_succ, if_true]
    cases accumulate v.toolCalls (tc :: rest) with
    | error e => rfl
    | ok tcs => simp [Except.map]

theorem View.finish1_ok (v v1 : View) (reason : String) (h : v.finish1 reason = .ok v1) :
    v1 = { v with finish := if reason ≠ "" then reason else v.finish } ∧
      (reason ≠ "" → v.hasChoice = true) := by
  unfold View.finish1 at h
  by_cases hr : reason = ""
  · simp [hr] at h
    simp [hr, ← h]
  · by_cases hc : v.hasChoice = true
    · simp [hr, hc] at h
      simp [hr, hc, ← h]
    · simp [hr, hc] at h

theorem View.step_header (agentName : String) (v v1 : View) (chunk : StreamChunk)
    (h : v.step agentName chunk = .ok v1) :
    v1.ID = (v.adopt chunk).ID ∧ v1.Model = (v.adopt chunk).Model := by
  unfold View.step at h
  cases hc : chunk.Choices with
  | nil =>
    simp only [hc] at h
    injection h with h
    simp [← h]
  | cons choice rest =>
    simp only [hc, View.tools_eq] at h
    cases ha : accumulate ((v.adopt chunk).content1 agentName choice.Delta.Content).toolCalls
        choice.Delta.ToolCalls with
    | error e => simp [ha, Except.map] at h
    | ok tcs =>
      simp only [ha, Except.map] at h
      obtain ⟨h1, -⟩ := View.finish1_ok _ _ _ h
      simp [h1]

theorem View.fold_ID (agentName : String) (chunks : List StreamChunk) (v v1 : View)
    (h : v.fold agentName chunks = .ok v1) :
    v1.ID = if v.ID ≠ "" then v.ID else firstNonEmpty (chunks.map (·.ID)) := by
  induction chunks generalizing v with
  | nil =>
    simp only [View.fold] at h
    injection h with h
    subst h
    by_cases hv : v.ID = "" <;> simp [hv, firstNonEmpty]
  | cons chunk rest ih =>
    simp only [View.fold] at h
    cases hs : v.step agentName chunk with
    | error e => simp [hs] at h
    | ok v2 =>
      simp only [hs] at h
      have h2 := (View.step_header agentName v v2 chunk hs).1
      rw [ih v2 h, h2]
      by_cases hv : v.ID = ""
      · by_cases hc : chunk.ID = "" <;> simp [View.adopt, hv, hc, firstNonEmpty]
      · simp [View.adopt, hv]

theorem View.fold_Model (agentName : String) (chunks : List StreamChunk) (v v1 : View)
    (h : v.fold agentName chunks = .ok v1) :
    v1.Model = if v.ID ≠ "" then v.Model else adoptedModel v.Model chunks := by
  induction chunks generalizing v with
  | nil =>
    simp only [View.fold] at h
    injection h with h
    subst h
    by_cases hv : v.ID = "" <;> simp [hv, adoptedModel]
  | cons chunk rest ih =>
    simp only [View.fold] at h
    cases hs : v.step agentName chunk with
    | error e => simp [hs] at h
    | ok v2 =>
      simp only [hs] at h
      obtain ⟨h2, h3⟩ := View.step_header agentName v v2 chunk hs
      rw [ih v2 h, h2, h3]
      by_cases hv : v.ID = ""
      · by_cases hc : chunk.ID = "" <;> simp [View.adopt, hv, hc, adoptedModel]
      · simp [View.adopt, hv]

theorem processChunk_header (agentName : String) (st st1 : LoopState) (chunk : StreamChunk)
    (h : processChunk agentName st chunk = .ok st1) :
    st1.resp.ID = (adoptID st.resp chunk).ID ∧
      st1.resp.Model = (adoptID st.resp chunk).Model := by
  have hv := viewOf_processChunk agentName st chunk
  rw [h] at hv
  have := View.step_header agentName (viewOf st) (viewOf st1) chunk hv.symm
  rw [← viewOf_adopt] at this
  exact this

theorem streamLoop_view (decode : String → Option StreamChunk) (agentName : String)
    (lines : List String) (st st1 : LoopState)
    (h : streamLoop decode agentName st lines = .ok st1) :
    (viewOf st).fold agentName (parsedChunks decode lines) = .ok (viewOf st1) := by
  rw [← viewOf_streamLoop, h]; rfl

/-- C5: the response ID held by the stream loop never changes once it is
non-empty, a chunk with an empty ID never sets it, and when the loop has run
through a line stream the ID is that of the first decoded chunk before any
`[DONE]` that carries a non-empty ID, or empty when there is none. -/
theorem response_ID_first_writer_wins (decode : String → Option StreamChunk)
    (agentName : String) :
    (∀ st chunk st1, processChunk agentName st chunk = .ok st1 →
        st.resp.ID ≠ "" → st1.resp.ID = st.resp.ID) ∧
    (∀ st chunk st1, processChunk agentName st chunk = .ok st1 →
        chunk.ID = "" → st1.resp.ID = st.resp.ID) ∧
    (∀ lines st1, streamLoop decode agentName {} lines = .ok st1 →
        st1.resp.ID = firstNonEmpty ((parsedChunks decode lines).map (·.ID))) := by
  refine ⟨?_, ?_, ?_⟩
  · intro st chunk st1 h hne
    rw [(processChunk_header agentName st st1 chunk h).1]
    simp [adoptID, hne]
  · intro st chunk st1 h he
    rw [(processChunk_header agentName st st1 chunk h).1]
    by_cases hs : st.resp.ID = "" <;> simp [adoptID, hs, he]
  · intro lines st1 h
    have := View.fold_ID agentName _ _ _ (streamLoop_view decode agentName lines {} st1 h)
    simpa [viewOf] using this

/-- Witness of C5: a stream whose first chunk has no ID and whose second has
the ID `r`. -/
theorem response_ID_first_writer_wins_witness :
    ∃ st1, streamLoop sampleDecode "agent" {} ["data: anon", "data: named"] = .ok st1 ∧
      st1.resp.ID
        = firstNonEmpty ((parsedChunks sampleDecode ["data: anon", "data: named"]).map (·.ID)) ∧
      st1.resp.ID = "r" := by
  have hok : (streamLoop sampleDecode "agent" {} ["data: anon", "data: named"]).isOk = true := by
    decide
  cases h : streamLoop sampleDecode "agent" {} ["data: anon", "data: named"] with
  | error e => rw [h] at hok; exact absurd hok (by simp [Except.isOk, Except.toBool])
  | ok st1 =>
    have h1 := (response_ID_first_writer_wins sampleDecode "agent").2.2 _ st1 h
    refine ⟨st1, rfl, h1, ?_⟩
    rw [h1]; decide

/-- C6, counterexample: with a first chunk of model `m1` and no ID and a
second chunk of model `m2` and ID `r`, the loop ends with the model `m2`, not
with the first non-empty model name `m1`. -/
theorem model_first_writer_counterexample :
    ∃ st1, streamLoop sampleDecode "agent" {} ["data: anon", "data: named"] = .ok st1 ∧
      st1.resp.Model = "m2" ∧
      firstNonEmpty ((parsedChunks sampleDecode ["data: anon", "data: named"]).map (·.Model))
        = "m1" ∧
      st1.resp.Model
        ≠ firstNonEmpty ((parsedChunks sampleDecode ["data: anon", "data: named"]).map (·.Model)) :=
  ⟨{ resp := { ID := "r", Model := "m2",
               Choices := [{ Message := { Role := "assistant", Content := "ab" } }] },
     events := [contentProgress "agent" { Model := "m1" } "a",
                contentProgress "agent" { ID := "r", Model := "m2" } "b"] },
   by rfl, by rfl, by decide, by decide⟩

/-- C6, amended: the model name is adopted together with the response ID.
While the accumulated ID is empty every processed chunk overwrites the model
with its own; once the ID is non-empty no later chunk changes the model; so
when the loop has run through a line stream the model is that of the first
decoded chunk with a non-empty ID, and without such a chunk that of the last
decoded chunk (empty when no chunk was decoded). -/
theorem model_adopted_with_ID (decode : String → Option StreamChunk)
    (agentName : String) :
    (∀ st chunk st1, processChunk agentName st chunk = .ok st1 →
        st.resp.ID ≠ "" → st1.resp.Model = st.resp.Model) ∧
    (∀ st chunk st1, processChunk agentName st chunk = .ok st1 →
        st.resp.ID = "" → st1.resp.Model = chunk.Model) ∧
    (∀ lines st1, streamLoop decode agentName {} lines = .ok st1 →
        st1.resp.Model = adoptedModel "" (parsedChunks decode lines)) := by
  refine ⟨?_, ?_, ?_⟩
  · intro st chunk st1 h hne
    rw [(processChunk_header agentName st st1 chunk h).2]
    simp [adoptID, hne]
  · intro st chunk st1 h he
    rw [(processChunk_header agentName st st1 chunk h).2]
    simp [adoptID, he]
  · intro lines st1 h
    have := View.fold_Model agentName _ _ _ (streamLoop_view decode agentName lines {} st1 h)
    simpa [viewOf] using this

/-- Witness of the amended C6 on the stream of the counterexample. -/
theorem model_adopted_with_ID_witness :
    ∃ st1, streamLoop sampleDecode "agent" {} ["data: anon", "data: named"] = .ok st1 ∧
      st1.resp.Model = adoptedModel "" (parsedChunks sampleDecode ["data: anon", "data: named"]) ∧
      st1.resp.Model = "m2" := by
  have hok : (streamLoop sampleDecode "agent" {} ["data: anon", "data: named"]).isOk = true := by
    decide
  cases h : streamLoop sampleDecode "agent" {} ["data: anon", "data: named"] with
  | error e => rw [h] at hok; exact absurd hok (by simp [Except.isOk, Except.toBool])
  | ok st1 =>
    have h1 := (model_adopted_with_ID sampleDecode "agent").2.2 _ st1 h
    refine ⟨st1, rfl, h1, ?_⟩
    rw [h1]; decide

/-- C4, the code at the failing input: on a state whose assembled message
holds one tool call and the finish reason `stop`, a chunk with the delta text
`Hel` yields a message with the text `Hel`, no tool call and no finish reason;
and the stream of one tool-call fragment followed by one text delta ends with
no tool call. -/
theorem text_delta_drops_tool_calls :
    processChunk "agent"
        { resp := { ID := "r1", Model := "m",
                    Choices := [{ Message := { Role := "assistant", ToolCalls :=
                                    [{ ID := "call_a", Typ := "function",
                                       Function := { Name := "f", Arguments := "A1" } }] },
                                  FinishReason := "stop" }] } }
        { ID := "r1", Model := "m", Choices := [{ Delta := { Content := "Hel" } }] }
      = .ok { resp := { ID := "r1", Model := "m",
                        Choices := [{ Message := { Role := "assistant", Content := "Hel" } }] },
              events := [contentProgress "agent" { ID := "r1", Model := "m" } "Hel"] } ∧
    (streamLoop sampleDecode "agent" {} ["data: a1"]).map (·.resp.toolCalls)
      = .ok [{ ID := "call_a", Typ := "function",
               Function := { Name := "f", Arguments := "A1" } }] ∧
    (streamLoop sampleDecode "agent" {} ["data: a1", "data: hel"]).map (·.resp.toolCalls)
      = .ok [] :=
  ⟨by rfl, by rfl, by rfl⟩

/-- C9, the code at the failing input: the first chunk carries the finish
reason `stop`, the second a text delta and no finish reason; the loop runs to
completion and the final choice has an empty finish reason, while the last
non-empty finish reason carried by a processed chunk is `stop`. -/
theorem text_delta_drops_finish_reason :
    (streamLoop sampleDecode "agent" {} ["data: stop", "data: lo"]).map
        (·.resp.finishReason) = .ok "" ∧
    lastNonEmpty ((parsedChunks sampleDecode ["data: stop", "data: lo"]).map finishOf)
      = "stop" ∧
    (streamLoop sampleDecode "agent" {} ["data: stop"]).map (·.resp.finishReason)
      = .ok "stop" :=
  ⟨by rfl, by decide, by rfl⟩

/-- C10: the tool choice of the wire request built by `toRequest` is absent for
the empty string, the same string for `auto`, `none` and `required`, and for
every other string `s` the directive with type `function` and function name
`s`. -/
theorem toRequest_toolChoice (parseFloat : String → Float64)
    (textMimeTypes : String → Bool) (base64Decode : String → String)
    (req : CompletionRequest) :
    ∃ wire, toRequest parseFloat textMimeTypes base64Decode req = .ok wire ∧
      wire.ToolChoice =
        if req.ToolChoice = "" then AnyValue.null
        else if req.ToolChoice = "auto" ∨ req.ToolChoice = "none" ∨
            req.ToolChoice = "required" then AnyValue.str req.ToolChoice
        else AnyValue.object [("type", AnyValue.str "function"),
          ("function", AnyValue.object [("name", AnyValue.str req.ToolChoice)])] := by
  refine ⟨_, rfl, ?_⟩
  simp only [convertToolChoice]
  by_cases h0 : req.ToolChoice = ""
  · simp [h0]
  · by_cases h1 : req.ToolChoice = "auto"
    · simp [h1]
    · by_cases h2 : req.ToolChoice = "none"
      · simp [h2]
      · by_cases h3 : req.ToolChoice = "required"
        · simp [h3]
        · simp [h0, h1, h2, h3]

/-! ## The tool-call list under dense indices -/

theorem applyFragment_new (tcs : List ToolCall) (tc : ToolCall)
    (h : (tcs.length : Int) ≤ tc.Index) :
    applyFragment tcs tc = .ok (tcs ++ [newSlot tc]) := by
  simp [applyFragment, h, newSlot]

theorem applyFragment_old (tcs : List ToolCall) (tc : ToolCall)
    (h0 : 0 ≤ tc.Index) (h : tc.Index < (tcs.length : Int)) :
    applyFragment tcs tc
      = .ok (tcs.modify (appendArgs tc.Function.Arguments) tc.Index.toNat) := by
  have h1 : ¬ (tcs.length : Int) ≤ tc.Index := by omega
  have h2 : ¬ tc.Index < 0 := by omega
  simp only [applyFragment, ge_iff_le, h1, h2, if_false]
  rfl

theorem applyFragment_negative (tcs : List ToolCall) (tc : ToolCall)
    (h : tc.Index < 0) :
    applyFragment tcs tc = .error (.indexOutOfRange tc.Index tcs.length) := by
  have h1 : ¬ (tcs.length : Int) ≤ tc.Index := by omega
  simp [applyFragment, h1, h]

theorem accumulate_append (frags1 frags2 : List ToolCall) (tcs : List ToolCall) :
    accumulate tcs (frags1 ++ frags2) =
      match accumulate tcs frags1 with
      | .error e => .error e
      | .ok tcs1 => accumulate tcs1 frags2 := by
  induction frags1 generalizing tcs with
  | nil => rfl
  | cons tc rest ih =>
    simp only [List.cons_append, accumulate]
    cases applyFragment tcs tc with
    | error e => rfl
    | ok tcs1 => exact ih tcs1

@[simp] theorem mergeSlot_nil (slot : Option ToolCall) : mergeSlot slot [] = slot := by
  cases slot <;> rfl

theorem accumulate_dense (frags : List ToolCall) (tcs : List ToolCall)
    (hd : dense tcs.length frags = true) :
    ∃ out, accumulate tcs frags = .ok out ∧ out.length = denseCount tcs.length frags ∧
      ∀ i : Nat, out[i]? = mergeSlot tcs[i]? (withIndex i frags) := by
  induction frags generalizing tcs with
  | nil => exact ⟨tcs, rfl, rfl, fun i => by simp [withIndex]⟩
  | cons tc rest ih =>
    simp only [dense, Bool.and_eq_true, decide_eq_true_eq] at hd
    obtain ⟨⟨h0, hle⟩, hrest⟩ := hd
    by_cases hn : tc.Index = (tcs.length : Int)
    · simp only [hn, if_true] at hrest
      have hlen : (tcs ++ [newSlot tc]).length = tcs.length + 1 := by simp
      obtain ⟨out, hacc, hcount, hslots⟩ := ih (tcs ++ [newSlot tc]) (by rw [hlen]; exact hrest)
      refine ⟨out, ?_, ?_, ?_⟩
      · simp only [accumulate, applyFragment_new tcs tc (by omega), hacc]
      · simp only [denseCount, hn, if_true, hcount, hlen]
      · intro i
        rw [hslots i]
        by_cases hi : i = tcs.length
        · subst hi
          have : withIndex (tcs.length : Int) (tc :: rest)
              = tc :: withIndex (tcs.length : Int) rest := by
            simp [withIndex, hn]
          rw [this]
          simp [mergeSlot]
        · have : withIndex (i : Int) (tc :: rest) = withIndex (i : Int) rest := by
            have : ¬ tc.Index = (i : Int) := by omega
            simp [withIndex, this]
          rw [this]
          congr 1
          by_cases hlt : i < tcs.length
          · exact List.getElem?_append_left hlt
          · have h1 : tcs.length < i := by omega
            have h2 : tcs[i]? = none := List.getElem?_eq_none (by omega)
            rw [h2]
            exact List.getElem?_eq_none (by simp; omega)
    · simp only [hn, if_false] at hrest
      have hlt : tc.Index < (tcs.length : Int) := by omega
      have hlen : (tcs.modify (appendArgs tc.Function.Arguments) tc.Index.toNat).length
          = tcs.length := by simp
      obtain ⟨out, hacc, hcount, hslots⟩ :=
        ih (tcs.modify (appendArgs tc.Function.Arguments) tc.Index.toNat)
          (by rw [hlen]; exact hrest)
      refine ⟨out, ?_, ?_, ?_⟩
      · simp only [accumulate, applyFragment_old tcs tc h0 hlt, hacc]
      · simp only [denseCount, hn, if_false, hcount, hlen]
      · intro i
        rw [hslots i]
        by_cases hi : tc.Index = (i : Int)
        · have hi2 : tc.Index.toNat = i := by omega
          have : withIndex (i : Int) (tc :: rest) = tc :: withIndex (i : Int) rest := by
            simp [withIndex, hi]
          rw [this, hi2, List.getElem?_modify_eq]
          have hil : i < tcs.length := by omega
          rw [List.getElem?_eq_getElem hil]
          simp [mergeSlot]
        · have hi2 : tc.Index.toNat ≠ i := by omega
          have : withIndex (i : Int) (tc :: rest) = withIndex (i : Int) rest := by
            simp [withIndex, hi]
          rw [this, List.getElem?_modify_ne _ _ hi2]

theorem appendArgs_empty (slot : ToolCall) : appendArgs "" slot = slot := by
  simp [appendArgs]

theorem appendArgs_appendArgs (a b : String) (slot : ToolCall) :
    appendArgs b (appendArgs a slot) = appendArgs (a ++ b) slot := by
  simp [appendArgs, String.append_assoc]

theorem mergeSlot_some (frags : List ToolCall) (slot : ToolCall) :
    mergeSlot (some slot) frags
      = some (appendArgs (concatAll (frags.map (·.Function.Arguments))) slot) := by
  induction frags generalizing slot with
  | nil => simp [concatAll, appendArgs_empty]
  | cons tc rest ih =>
    simp only [mergeSlot, ih, appendArgs_appendArgs, List.map_cons, concatAll]

theorem mergeSlot_none (frags : List ToolCall) (i : Int) :
    mergeSlot none (withIndex i frags) = assembled frags i := by
  unfold assembled
  cases withIndex i frags with
  | nil => rfl
  | cons tc rest =>
    simp only [mergeSlot, mergeSlot_some, List.map_cons, concatAll]
    simp [appendArgs, newSlot]

theorem firstSeenFrom_mem (indices seen : List Int) (x : Int) :
    x ∈ firstSeenFrom seen indices ↔ x ∈ seen ∨ x ∈ indices := by
  induction indices generalizing seen with
  | nil => simp [firstSeenFrom]
  | cons i rest ih =>
    simp only [firstSeenFrom, ih, List.mem_cons]
    by_cases h : i ∈ seen
    · simp only [h, if_true]
      constructor
      · rintro (h1 | h1)
        · exact Or.inl h1
        · exact Or.inr (Or.inr h1)
      · rintro (h1 | h1 | h1)
        · exact Or.inl h1
        · exact Or.inl (h1 ▸ h)
        · exact Or.inr h1
    · simp only [h, if_false, List.mem_append, List.mem_singleton]
      tauto

theorem firstSeenFrom_nodup (indices seen : List Int) (h : seen.Nodup) :
    (firstSeenFrom seen indices).Nodup := by
  induction indices generalizing seen with
  | nil => simpa [firstSeenFrom] using h
  | cons i rest ih =>
    simp only [firstSeenFrom]
    by_cases hi : i ∈ seen
    · simp only [hi, if_true]; exact ih seen h
    · simp only [hi, if_false]
      apply ih
      rw [List.nodup_append]
      refine ⟨h, List.nodup_singleton i, ?_⟩
      intro a ha hb
      simp only [List.mem_singleton] at hb
      exact hi (hb ▸ ha)

theorem firstSeen_length (indices : List Int) :
    (firstSeen indices).length = indices.dedup.length := by
  unfold firstSeen
  rw [← List.card_toFinset, ← List.toFinset_card_of_nodup
    (firstSeenFrom_nodup indices [] List.nodup_nil)]
  congr 1
  ext x
  simp [firstSeenFrom_mem]

theorem firstSeenFrom_dense (frags : List ToolCall) (n : Nat)
    (hd : dense n frags = true) :
    firstSeenFrom ((List.range n).map Int.ofNat) (frags.map (·.Index))
      = (List.range (denseCount n frags)).map Int.ofNat := by
  induction frags generalizing n with
  | nil => rfl
  | cons tc rest ih =>
    simp only [dense, Bool.and_eq_true, decide_eq_true_eq] at hd
    obtain ⟨⟨h0, hle⟩, hrest⟩ := hd
    simp only [List.map_cons, firstSeenFrom, denseCount]
    by_cases hn : tc.Index = (n : Int)
    · simp only [hn, if_true] at hrest ⊢
      have hnot : ¬ ((n : Int) ∈ (List.range n).map Int.ofNat) := by
        simp only [List.mem_map, List.mem_range, not_exists, not_and]
        intro a ha hEq
        have : (a : Int) = (n : Int) := hEq
        omega
      simp only [hnot, if_false]
      rw [← ih (n + 1) hrest, List.range_succ, List.map_append]
      rfl
    · simp only [hn, if_false] at hrest ⊢
      have hmem : tc.Index ∈ (List.range n).map Int.ofNat := by
        simp only [List.mem_map, List.mem_range]
        refine ⟨tc.Index.toNat, by omega, ?_⟩
        show (tc.Index.toNat : Int) = tc.Index
        omega
      simp only [hmem, if_true]
      exact ih n hrest

theorem firstSeen_dense (frags : List ToolCall) (hd : dense 0 frags = true) :
    firstSeen (frags.map (·.Index)) = (List.range (denseCount 0 frags)).map Int.ofNat := by
  have := firstSeenFrom_dense frags 0 hd
  simpa [firstSeen] using this

theorem denseCount_eq_distinct (frags : List ToolCall) (hd : dense 0 frags = true) :
    denseCount 0 frags = (frags.map (·.Index)).dedup.length := by
  rw [← firstSeen_length, firstSeen_dense frags hd]
  simp

theorem dense_append (frags1 frags2 : List ToolCall) (n : Nat) :
    dense n (frags1 ++ frags2)
      = (dense n frags1 && dense (denseCount n frags1) frags2) := by
  induction frags1 generalizing n with
  | nil => simp [dense, denseCount]
  | cons tc rest ih =>
    simp only [List.cons_append, dense, denseCount, List.append_eq, ih, Bool.and_assoc]

theorem denseCount_append (frags1 frags2 : List ToolCall) (n : Nat) :
    denseCount n (frags1 ++ frags2) = denseCount (denseCount n frags1) frags2 := by
  induction frags1 generalizing n with
  | nil => rfl
  | cons tc rest ih => simp only [List.cons_append, denseCount, List.append_eq, ih]

theorem mem_indices_dense (frags : List ToolCall) (hd : dense 0 frags = true) (x : Int) :
    x ∈ frags.map (·.Index) ↔ 0 ≤ x ∧ x < (denseCount 0 frags : Int) := by
  have h1 := firstSeenFrom_mem (frags.map (·.Index)) [] x
  have h2 := firstSeen_dense frags hd
  unfold firstSeen at h2
  rw [h2] at h1
  simp only [List.not_mem_nil, false_or] at h1
  rw [← h1]
  simp only [List.mem_map, List.mem_range]
  constructor
  · rintro ⟨a, ha, rfl⟩
    exact ⟨Int.ofNat_nonneg a, by show (a : Int) < _; exact_mod_cast ha⟩
  · rintro ⟨h0, hlt⟩
    refine ⟨x.toNat, by omega, ?_⟩
    show (x.toNat : Int) = x
    omega

theorem list_eq_filterMap_range {α : Type} (l : List α) :
    l = (List.range l.length).filterMap fun i => l[i]? := by
  induction l using List.reverseRecOn with
  | nil => rfl
  | append_singleton l a ih =>
    rw [List.length_append, List.length_singleton, List.range_succ, List.filterMap_append]
    have h1 : (List.range l.length).filterMap (fun i => (l ++ [a])[i]?)
        = (List.range l.length).filterMap (fun i => l[i]?) := by
      apply List.filterMap_congr
      intro i hi
      exact List.getElem?_append_left (List.mem_range.mp hi)
    rw [h1, ← ih]
    simp

theorem assembled_isSome (frags : List ToolCall) (i : Int)
    (h : i ∈ frags.map (·.Index)) : (assembled frags i).isSome = true := by
  unfold assembled
  cases hw : withIndex i frags with
  | nil =>
    exfalso
    obtain ⟨tc, htc, hi⟩ := List.mem_map.mp h
    have : tc ∈ withIndex i frags := by
      simp [withIndex, htc, hi]
    rw [hw] at this
    exact List.not_mem_nil _ this
  | cons tc rest => rfl

theorem accumulate_dense_slots (frags : List ToolCall) (hd : dense 0 frags = true) :
    ∃ out, accumulate [] frags = .ok out ∧ out.length = denseCount 0 frags ∧
      ∀ i : Nat, out[i]? = assembled frags i := by
  obtain ⟨out, h1, h2, h3⟩ := accumulate_dense frags [] hd
  refine ⟨out, h1, h2, fun i => ?_⟩
  rw [h3 i]
  simpa using mergeSlot_none frags i

/-- C2, counterexample: the stream of two chunks with one fragment of index 5
each ends with two slots although the second index was seen before; on the
tool-call list alone, two fragments with the index 5 allocate two slots, and
after a first fragment with index 1 a fragment with the unseen index 0 appends
to the slot of index 1. -/
theorem sparse_indices_counterexample :
    (streamLoop sampleDecode "agent" {} ["data: s5a", "data: s5b"]).map (·.resp.toolCalls)
      = .ok [{ ID := "call_a", Typ := "function",
               Function := { Name := "f", Arguments := "A1" } },
             { Function := { Arguments := "A2" } }] ∧
    firstSeen ((allFragments (parsedChunks sampleDecode ["data: s5a", "data: s5b"])).map
      (·.Index)) = [5] ∧
    accumulate []
        [{ ID := "call_a", Typ := "function", Index := 5,
           Function := { Name := "f", Arguments := "A1" } },
         { Index := 5, Function := { Arguments := "A2" } }]
      = .ok [{ ID := "call_a", Typ := "function",
               Function := { Name := "f", Arguments := "A1" } },
             { Function := { Arguments := "A2" } }] ∧
    firstSeen [5, 5] = [5] ∧
    accumulate []
        [{ ID := "call_b", Typ := "function", Index := 1,
           Function := { Name := "g", Arguments := "B1" } },
         { ID := "call_a", Typ := "function", Index := 0,
           Function := { Name := "f", Arguments := "A1" } }]
      = .ok [{ ID := "call_b", Typ := "function",
               Function := { Name := "g", Arguments := "B1A1" } }] ∧
    firstSeen [1, 0] = [1, 0] :=
  ⟨by rfl, by decide, by rfl, by decide, by rfl, by decide⟩

/-- The fragment update under dense indices: at every point of the sequence
the fragments before it have been accumulated without failure, a fragment with
an unseen index allocates a new slot at the end, a fragment with a seen index
appends its arguments to the slot at the position of its index, which is the
slot assembled from the earlier fragments of that index; and the final list
is, in first-seen order of the indices, the tool call assembled from the
fragments of each index. -/
theorem accumulate_fills_slots_when_dense (frags : List ToolCall)
    (hd : dense 0 frags = true) :
    (∀ pre tc post, frags = pre ++ tc :: post →
      ∃ slots, accumulate [] pre = .ok slots ∧
        (tc.Index ∉ pre.map (·.Index) →
          applyFragment slots tc = .ok (slots ++ [newSlot tc])) ∧
        (tc.Index ∈ pre.map (·.Index) →
          slots[tc.Index.toNat]? = assembled pre tc.Index ∧
          (assembled pre tc.Index).isSome = true ∧
          applyFragment slots tc
            = .ok (slots.modify (appendArgs tc.Function.Arguments) tc.Index.toNat))) ∧
    ∃ out, accumulate [] frags = .ok out ∧
      out = (firstSeen (frags.map (·.Index))).filterMap (assembled frags) := by
  constructor
  · intro pre tc post hsplit
    subst hsplit
    rw [dense_append] at hd
    simp only [Bool.and_eq_true] at hd
    obtain ⟨hpre, hpost⟩ := hd
    simp only [dense, Bool.and_eq_true, decide_eq_true_eq] at hpost
    obtain ⟨⟨h0, hle⟩, -⟩ := hpost
    obtain ⟨slots, hacc, hlen, hslots⟩ := accumulate_dense_slots pre hpre
    refine ⟨slots, hacc, ?_, ?_⟩
    · intro hnew
      rw [mem_indices_dense pre hpre] at hnew
      exact applyFragment_new slots tc (by rw [hlen]; omega)
    · intro hseen
      have hs := hseen
      rw [mem_indices_dense pre hpre] at hs
      have hcast : ((tc.Index.toNat : Nat) : Int) = tc.Index := by omega
      refine ⟨?_, assembled_isSome pre tc.Index hseen, ?_⟩
      · rw [hslots, hcast]
      · exact applyFragment_old slots tc h0 (by rw [hlen]; exact hs.2)
  · obtain ⟨out, hacc, hlen, hslots⟩ := accumulate_dense_slots frags hd
    refine ⟨out, hacc, ?_⟩
    rw [firstSeen_dense frags hd, List.filterMap_map, ← hlen]
    conv_lhs => rw [list_eq_filterMap_range out]
    apply List.filterMap_congr
    intro i _
    exact hslots i

/-! ## The loop body in closed form -/

theorem isEmpty_eq_decide {α : Type} [DecidableEq α] (l : List α) :
    l.isEmpty = decide (l = []) := by
  cases l <;> simp

theorem View.step_eq (agentName : String) (v : View) (chunk : StreamChunk) :
    v.step agentName chunk =
      match accumulate (if deltaTextOf chunk ≠ "" then [] else v.toolCalls)
          (fragmentsOf chunk) with
      | .error e => .error e
      | .ok tcs =>
        if finishOf chunk ≠ "" ∧ v.hasChoice = false ∧ deltaTextOf chunk = "" ∧
            fragmentsOf chunk = [] then
          .error (.indexOutOfRange 0 0)
        else .ok (v.next agentName chunk tcs) := by
  cases hc : chunk.Choices with
  | nil =>
    simp only [View.step, hc, deltaTextOf, fragmentsOf, finishOf, accumulate, View.next]
    simp only [ne_eq, not_true_eq_false, if_false, false_and]
    congr 1
    apply View.ext <;> simp
  | cons choice rest =>
    simp only [View.step, hc, deltaTextOf, fragmentsOf, finishOf, View.tools_eq, View.next]
    by_cases ht : choice.Delta.Content = ""
    · simp only [ht, View.content1_empty, ne_eq, not_true_eq_false, if_false, View.adopt_toolCalls]
      cases accumulate v.toolCalls choice.Delta.ToolCalls with
      | error e => rfl
      | ok tcs =>
        simp only [Except.map, View.finish1]
        by_cases hf : choice.FinishReason = ""
        · simp only [hf, ne_eq, not_true_eq_false, if_false, false_and]
          congr 1
          apply View.ext <;> simp [isEmpty_eq_decide]
        · by_cases hh : v.hasChoice = true
          · simp only [hf, ne_eq, not_false_eq_true, if_true, hh, Bool.true_or,
              View.adopt_hasChoice, true_and, Bool.true_eq_false, false_and, if_false]
            congr 1
            apply View.ext <;> simp
          · have hh2 : v.hasChoice = false := by simpa using hh
            cases hfr : choice.Delta.ToolCalls with
            | nil =>
              simp [hf, hh2]
            | cons tc more =>
              simp only [hf, ne_eq, not_false_eq_true, if_true, hh2, View.adopt_hasChoice,
                List.isEmpty_cons, Bool.not_false, Bool.or_true, true_and, reduceCtorEq,
                and_false, if_false]
              congr 1
              apply View.ext <;> simp
    · simp only [View.content1_text _ _ _ ht, ne_eq, ht, not_false_eq_true, if_true]
      cases accumulate [] choice.Delta.ToolCalls with
      | error e => rfl
      | ok tcs =>
        simp only [Except.map, View.finish1]
        by_cases hf : choice.FinishReason = ""
        · simp only [hf, ne_eq, not_true_eq_false, if_false, false_and]
          congr 1
          delta View.toolEvent View.contentEvent
          apply View.ext <;> simp
        · simp only [hf, ne_eq, not_false_eq_true, if_true, Bool.true_or, and_false,
            false_and, if_false]
          congr 1
          delta View.toolEvent View.contentEvent
          apply View.ext <;> simp

theorem allFragments_cons (chunk : StreamChunk) (rest : List StreamChunk) :
    allFragments (chunk :: rest) = fragmentsOf chunk ++ allFragments rest := by
  simp [allFragments]

theorem View.fold_textFree (agentName : String) (chunks : List StreamChunk) (v : View)
    (out : List ToolCall) (htext : ∀ c ∈ chunks, deltaTextOf c = "")
    (hfin : finishAfterMessage v.hasChoice chunks = true)
    (hacc : accumulate v.toolCalls (allFragments chunks) = .ok out) :
    ∃ v1, v.fold agentName chunks = .ok v1 ∧ v1.toolCalls = out := by
  induction chunks generalizing v with
  | nil =>
    simp only [allFragments, List.flatMap_nil, accumulate] at hacc
    injection hacc with hacc
    exact ⟨v, rfl, hacc⟩
  | cons chunk rest ih =>
    have ht : deltaTextOf chunk = "" := htext chunk (List.mem_cons_self _ _)
    rw [allFragments_cons, accumulate_append] at hacc
    simp only [finishAfterMessage, ht, ne_eq, not_true_eq_false, decide_False, Bool.or_false,
      Bool.and_eq_true, Bool.or_eq_true, decide_eq_true_eq, decide_not, Bool.not_eq_true',
      decide_eq_false_iff_not] at hfin
    obtain ⟨hguard, hrest⟩ := hfin
    simp only [View.fold, View.step_eq, ht, ne_eq, not_true_eq_false, if_false]
    cases hmid : accumulate v.toolCalls (fragmentsOf chunk) with
    | error e => simp [hmid] at hacc
    | ok mid =>
      simp only [hmid] at hacc
      have hno : ¬ (¬ finishOf chunk = "" ∧ v.hasChoice = false ∧ True ∧
          fragmentsOf chunk = []) := by
        rintro ⟨h1, h2, -, h4⟩
        rcases hguard with (h | h) | h
        · exact h1 h
        · rw [h2] at h; exact Bool.noConfusion h
        · exact h h4
      simp only [hno, if_false]
      apply ih (v.next agentName chunk mid) (fun c hc => htext c (List.mem_cons_of_mem _ hc))
      · simpa [View.next, ht] using hrest
      · simpa [View.next] using hacc

/-- C1, amended: for every line stream whose decoded chunks carry no delta
text, whose tool-call fragments arrive densely (each index either below the number of
slots already allocated or equal to it, so indices first appear as 0, 1, 2,
...), and in which a finish reason is only carried once a fragment has arrived,
the stream loop runs to completion with exactly one tool call per distinct
index, in index order: tool call `i` has the ID, type and name of the first
fragment with index `i`, and its arguments are the argument texts of all
fragments with index `i`, joined in arrival order. -/
theorem interleaved_fragments_assemble (decode : String → Option StreamChunk)
    (agentName : String) (lines : List String)
    (htext : ∀ c ∈ parsedChunks decode lines, deltaTextOf c = "")
    (hdense : dense 0 (allFragments (parsedChunks decode lines)) = true)
    (hfin : finishAfterMessage false (parsedChunks decode lines) = true) :
    ∃ st, streamLoop decode agentName {} lines = .ok st ∧
      st.resp.toolCalls.length
        = ((allFragments (parsedChunks decode lines)).map (·.Index)).dedup.length ∧
      (∀ i : Nat, st.resp.toolCalls[i]?
        = assembled (allFragments (parsedChunks decode lines)) i) ∧
      (∀ (i : Nat) (tc : ToolCall), st.resp.toolCalls[i]? = some tc →
        tc.Function.Arguments
          = concatAll ((withIndex i (allFragments (parsedChunks decode lines))).map
              (·.Function.Arguments))) := by
  obtain ⟨out, hacc, hlen, hslots⟩ := accumulate_dense_slots _ hdense
  obtain ⟨v1, hfold, htcs⟩ :=
    View.fold_textFree agentName (parsedChunks decode lines) (viewOf {}) out htext hfin hacc
  rw [← viewOf_streamLoop] at hfold
  obtain ⟨st, hst, hview⟩ := except_map_eq_ok _ _ _ hfold
  have hst_tcs : st.resp.toolCalls = out := by
    rw [← htcs, ← hview]; rfl
  refine ⟨st, hst, ?_, ?_, ?_⟩
  · rw [hst_tcs, hlen, denseCount_eq_distinct _ hdense]
  · intro i
    rw [hst_tcs]
    exact hslots i
  · intro i tc htc
    rw [hst_tcs, hslots i] at htc
    unfold assembled at htc
    cases hw : withIndex (i : Int) (allFragments (parsedChunks decode lines)) with
    | nil => simp [hw] at htc
    | cons f more =>
      simp only [hw] at htc
      injection htc with htc
      rw [← htc]

/-- Witness of C1: fragments arriving with the indices 0, 1, 0, 1, 1 give two
tool calls in the order 0, 1, the first joining its two fragments and the
second its three. -/
theorem interleaved_fragments_assemble_witness :
    (∀ c ∈ parsedChunks sampleDecode sampleToolLines, deltaTextOf c = "") ∧
    dense 0 (allFragments (parsedChunks sampleDecode sampleToolLines)) = true ∧
    finishAfterMessage false (parsedChunks sampleDecode sampleToolLines) = true ∧
    (∃ st, streamLoop sampleDecode "agent" {} sampleToolLines = .ok st ∧
      st.resp.toolCalls
        = [{ ID := "call_a", Typ := "function", Function := { Name := "f", Arguments := "A1A2" } },
           { ID := "call_b", Typ := "function",
             Function := { Name := "g", Arguments := "B1B2B3" } }]) := by
  have h1 : ∀ c ∈ parsedChunks sampleDecode sampleToolLines, deltaTextOf c = "" := by decide
  have h2 : dense 0 (allFragments (parsedChunks sampleDecode sampleToolLines)) = true := by
    decide
  have h3 : finishAfterMessage false (parsedChunks sampleDecode sampleToolLines) = true := by
    decide
  refine ⟨h1, h2, h3, ?_⟩
  obtain ⟨st, hst, -⟩ :=
    interleaved_fragments_assemble sampleDecode "agent" sampleToolLines h1 h2 h3
  refine ⟨st, hst, ?_⟩
  have hval : (streamLoop sampleDecode "agent" {} sampleToolLines).map (·.resp.toolCalls)
      = .ok [{ ID := "call_a", Typ := "function",
               Function := { Name := "f", Arguments := "A1A2" } },
             { ID := "call_b", Typ := "function",
               Function := { Name := "g", Arguments := "B1B2B3" } }] := by rfl
  rw [hst] at hval
  injection hval

/-! ## Decimal numerals and item IDs -/

theorem digitChar_value (k : Nat) (hk : k < 10) : (Nat.digitChar k).toNat - 48 = k := by
  interval_cases k <;> rfl

theorem toDigitsCore_value (fuel : Nat) :
    ∀ (n : Nat) (ds : List Char), n < fuel →
      (Nat.toDigitsCore 10 fuel n ds).foldl (fun acc c => 10 * acc + (c.toNat - 48)) 0
        = ds.foldl (fun acc c => 10 * acc + (c.toNat - 48)) n := by
  induction fuel with
  | zero => intro n ds h; omega
  | succ fuel ih =>
    intro n ds h
    simp only [Nat.toDigitsCore]
    by_cases h0 : n / 10 = 0
    · simp only [h0, if_true, List.foldl_cons, Nat.mul_zero, Nat.zero_add]
      rw [digitChar_value _ (Nat.mod_lt _ (by decide))]
      have : n % 10 = n := Nat.mod_eq_of_lt (by omega)
      rw [this]
    · simp only [h0, if_false]
      rw [ih (n / 10) _ (by omega)]
      simp only [List.foldl_cons]
      rw [digitChar_value _ (Nat.mod_lt _ (by decide))]
      have : 10 * (n / 10) + n % 10 = n := Nat.div_add_mod n 10
      rw [this]

theorem natRepr_injective (a b : Nat) (h : Nat.repr a = Nat.repr b) : a = b := by
  have hd : Nat.toDigits 10 a = Nat.toDigits 10 b := by
    have := congrArg String.data h
    simpa [Nat.repr, List.asString] using this
  have ha := toDigitsCore_value (a + 1) a [] (by omega)
  have hb := toDigitsCore_value (b + 1) b [] (by omega)
  simp only [List.foldl_nil] at ha hb
  unfold Nat.toDigits at hd
  rw [← ha, ← hb, hd]

theorem formatInt_natCast (a : Nat) : formatInt (a : Int) = Nat.repr a := rfl

theorem formatInt_injective_nat (a b : Nat) (h : formatInt (a : Int) = formatInt (b : Int)) :
    a = b :=
  natRepr_injective a b h

theorem string_append_cancel_left (p s t : String) (h : p ++ s = p ++ t) : s = t := by
  have := congrArg String.data h
  simp only [String.data_append, List.append_cancel_left_eq] at this
  exact String.ext this

theorem itemID_eq_iff (respID : String) (x : Int) (i : Nat) (hx : 0 ≤ x) :
    respID ++ "-" ++ formatInt x = respID ++ "-" ++ formatInt (i : Int) ↔ x = (i : Int) := by
  constructor
  · intro h
    have h1 := string_append_cancel_left _ _ _ h
    obtain ⟨k, rfl⟩ := Int.eq_ofNat_of_zero_le hx
    rw [formatInt_injective_nat k i h1]
  · rintro rfl; rfl

/-! ## Progress events against the accumulated response -/

theorem concatAll_append (l1 l2 : List String) :
    concatAll (l1 ++ l2) = concatAll l1 ++ concatAll l2 := by
  induction l1 with
  | nil => simp [concatAll]
  | cons s rest ih => simp [concatAll, ih, String.append_assoc]

theorem textFor_append (itemID : String) (e1 e2 : List CompletionProgress) :
    textFor itemID (e1 ++ e2) = textFor itemID e1 ++ textFor itemID e2 := by
  simp [textFor, concatAll_append]

theorem argsFor_append (itemID : String) (e1 e2 : List CompletionProgress) :
    argsFor itemID (e1 ++ e2) = argsFor itemID e1 ++ argsFor itemID e2 := by
  simp [argsFor, concatAll_append]

theorem View.adopt_of_ID (v : View) (chunk : StreamChunk) (h : v.ID ≠ "") :
    v.adopt chunk = v := by
  simp [View.adopt, h]

theorem View.toolEvent_congr (agentName : String) (v w : View) (hid : v.ID = w.ID)
    (hm : v.Model = w.Model) : v.toolEvent agentName = w.toolEvent agentName := by
  funext tc
  simp [View.toolEvent, hid, hm]

theorem View.contentEvent_congr (agentName : String) (v w : View) (hid : v.ID = w.ID)
    (hm : v.Model = w.Model) : v.contentEvent agentName = w.contentEvent agentName := by
  funext text
  simp [View.contentEvent, hid, hm]

theorem chunkEvents_congr (agentName : String) (v w : View) (hid : v.ID = w.ID)
    (hm : v.Model = w.Model) : chunkEvents agentName v = chunkEvents agentName w := by
  funext chunk
  simp [chunkEvents, View.toolEvent_congr agentName v w hid hm,
    View.contentEvent_congr agentName v w hid hm]

theorem View.step_fixed (agentName : String) (v v1 : View) (chunk : StreamChunk)
    (hid : v.ID ≠ "") (h : v.step agentName chunk = .ok v1) :
    v1.ID = v.ID ∧ v1.Model = v.Model ∧
      v1.content = v.content ++ deltaTextOf chunk ∧
      v1.events = v.events ++ chunkEvents agentName v chunk ∧
      v1.hasChoice = (v.hasChoice || decide (deltaTextOf chunk ≠ "") ||
        decide (fragmentsOf chunk ≠ [])) ∧
      accumulate (if deltaTextOf chunk ≠ "" then [] else v.toolCalls) (fragmentsOf chunk)
        = .ok v1.toolCalls := by
  rw [View.step_eq] at h
  cases hacc : accumulate (if deltaTextOf chunk ≠ "" then [] else v.toolCalls)
      (fragmentsOf chunk) with
  | error e => rw [hacc] at h; exact Except.noConfusion h
  | ok tcs =>
    rw [hacc] at h
    dsimp only at h
    split at h
    · exact Except.noConfusion h
    · injection h with h
      subst h
      simp [View.next, View.adopt_of_ID v chunk hid, chunkEvents, List.append_assoc]

theorem View.fold_fixed (agentName : String) (chunks : List StreamChunk) (v v1 : View)
    (hid : v.ID ≠ "") (h : v.fold agentName chunks = .ok v1) :
    v1.ID = v.ID ∧ v1.Model = v.Model ∧
      v1.content = v.content ++ concatAll (chunks.map deltaTextOf) ∧
      v1.events = v.events ++ chunks.flatMap (chunkEvents agentName v) := by
  induction chunks generalizing v with
  | nil =>
    simp only [View.fold] at h
    injection h with h
    subst h
    simp [concatAll]
  | cons chunk rest ih =>
    simp only [View.fold] at h
    cases hs : v.step agentName chunk with
    | error e => simp [hs] at h
    | ok v2 =>
      simp only [hs] at h
      obtain ⟨h1, h2, h3, h4, -, -⟩ := View.step_fixed agentName v v2 chunk hid hs
      obtain ⟨g1, g2, g3, g4⟩ := ih v2 (by rw [h1]; exact hid) h
      refine ⟨by rw [g1, h1], by rw [g2, h2], ?_, ?_⟩
      · rw [g3, h3]
        simp [concatAll, String.append_assoc]
      · rw [g4, h4, chunkEvents_congr agentName v2 v h1 h2]
        simp [List.append_assoc]

theorem View.fold_fixed_toolCalls (agentName : String) (chunks : List StreamChunk)
    (v v1 : View) (seen : Bool) (hid : v.ID ≠ "")
    (hseen : seen = false → v.toolCalls = [])
    (horder : textBeforeFragments seen chunks = true)
    (h : v.fold agentName chunks = .ok v1) :
    accumulate v.toolCalls (allFragments chunks) = .ok v1.toolCalls := by
  induction chunks generalizing v seen with
  | nil =>
    simp only [View.fold] at h
    injection h with h
    subst h
    rfl
  | cons chunk rest ih =>
    simp only [View.fold] at h
    cases hs : v.step agentName chunk with
    | error e => simp [hs] at h
    | ok v2 =>
      simp only [hs] at h
      obtain ⟨h1, -, -, -, -, h6⟩ := View.step_fixed agentName v v2 chunk hid hs
      simp only [textBeforeFragments, Bool.and_eq_true, Bool.or_eq_true, decide_eq_true_eq,
        Bool.not_eq_true'] at horder
      obtain ⟨hhere, hrest⟩ := horder
      have hbase : (if deltaTextOf chunk ≠ "" then [] else v.toolCalls) = v.toolCalls := by
        by_cases ht : deltaTextOf chunk = ""
        · simp [ht]
        · rcases hhere with h0 | h0
          · exact absurd h0 ht
          · simp [ht, hseen h0]
      rw [hbase] at h6
      rw [allFragments_cons, accumulate_append, h6]
      apply ih v2 (seen || decide (fragmentsOf chunk ≠ [])) (by rw [h1]; exact hid) _ hrest h
      intro hs2
      simp only [Bool.or_eq_false_iff, decide_eq_false_iff_not, ne_eq, not_not] at hs2
      obtain ⟨hsf, hfr⟩ := hs2
      rw [hfr] at h6
      simp only [accumulate] at h6
      injection h6 with h6
      rw [← h6]
      exact hseen hsf

theorem textFor_toolEvents (agentName : String) (v : View) (itemID : String)
    (frags : List ToolCall) : textFor itemID (frags.map (v.toolEvent agentName)) = "" := by
  induction frags with
  | nil => rfl
  | cons tc rest ih =>
    rw [List.map_cons, ← List.singleton_append, textFor_append, ih]
    simp only [textFor, View.toolEvent, List.filter]
    split <;> simp [concatAll]

theorem textFor_chunkEvents (agentName : String) (v : View) (chunk : StreamChunk) :
    textFor (v.ID ++ "-0") (chunkEvents agentName v chunk) = deltaTextOf chunk := by
  rw [chunkEvents, textFor_append, textFor_toolEvents]
  by_cases ht : deltaTextOf chunk = ""
  · simp [ht, textFor, concatAll]
  · simp [ht, textFor, View.contentEvent, concatAll]

theorem textFor_flatMap_chunkEvents (agentName : String) (v : View)
    (chunks : List StreamChunk) :
    textFor (v.ID ++ "-0") (chunks.flatMap (chunkEvents agentName v))
      = concatAll (chunks.map deltaTextOf) := by
  induction chunks with
  | nil => rfl
  | cons chunk rest ih =>
    rw [List.flatMap_cons, textFor_append, ih, textFor_chunkEvents]
    rfl

theorem argsFor_toolEvents (agentName : String) (v : View) (i : Nat)
    (frags : List ToolCall) (hnn : ∀ tc ∈ frags, 0 ≤ tc.Index) :
    argsFor (v.ID ++ "-" ++ formatInt (i : Int)) (frags.map (v.toolEvent agentName))
      = concatAll ((withIndex (i : Int) frags).map (·.Function.Arguments)) := by
  induction frags with
  | nil => rfl
  | cons tc rest ih =>
    rw [List.map_cons, ← List.singleton_append, argsFor_append,
      ih (fun t ht => hnn t (List.mem_cons_of_mem _ ht))]
    have h0 : 0 ≤ tc.Index := hnn tc (List.mem_cons_self _ _)
    by_cases hi : tc.Index = (i : Int)
    · have : withIndex (i : Int) (tc :: rest) = tc :: withIndex (i : Int) rest := by
        simp [withIndex, hi]
      rw [this]
      simp [argsFor, View.toolEvent, hi, concatAll]
    · have : withIndex (i : Int) (tc :: rest) = withIndex (i : Int) rest := by
        simp [withIndex, hi]
      rw [this]
      have hne : ¬ (v.ID ++ "-" ++ formatInt tc.Index = v.ID ++ "-" ++ formatInt (i : Int)) := by
        rw [itemID_eq_iff v.ID tc.Index i h0]
        exact hi
      simp [argsFor, View.toolEvent, hne, concatAll]

theorem argsFor_chunkEvents (agentName : String) (v : View) (i : Nat) (chunk : StreamChunk)
    (hnn : ∀ tc ∈ fragmentsOf chunk, 0 ≤ tc.Index) :
    argsFor (v.ID ++ "-" ++ formatInt (i : Int)) (chunkEvents agentName v chunk)
      = concatAll ((withIndex (i : Int) (fragmentsOf chunk)).map (·.Function.Arguments)) := by
  rw [chunkEvents, argsFor_append, argsFor_toolEvents agentName v i _ hnn]
  by_cases ht : deltaTextOf chunk = ""
  · simp [ht, argsFor, concatAll]
  · simp only [ne_eq, ht, not_false_eq_true, if_true, argsFor, View.contentEvent, List.filter]
    split <;> simp [concatAll]

theorem withIndex_append (i : Int) (l1 l2 : List ToolCall) :
    withIndex i (l1 ++ l2) = withIndex i l1 ++ withIndex i l2 := by
  simp [withIndex]

theorem argsFor_flatMap_chunkEvents (agentName : String) (v : View) (i : Nat)
    (chunks : List StreamChunk) (hnn : ∀ tc ∈ allFragments chunks, 0 ≤ tc.Index) :
    argsFor (v.ID ++ "-" ++ formatInt (i : Int)) (chunks.flatMap (chunkEvents agentName v))
      = concatAll ((withIndex (i : Int) (allFragments chunks)).map (·.Function.Arguments)) := by
  induction chunks with
  | nil => rfl
  | cons chunk rest ih =>
    rw [allFragments_cons] at hnn
    rw [List.flatMap_cons, argsFor_append, allFragments_cons, withIndex_append, List.map_append,
      concatAll_append,
      ih (fun t ht => hnn t (List.mem_append_right _ ht)),
      argsFor_chunkEvents agentName v i chunk (fun t ht => hnn t (List.mem_append_left _ ht))]

theorem dense_nonneg (frags : List ToolCall) (n : Nat) (hd : dense n frags = true) :
    ∀ tc ∈ frags, 0 ≤ tc.Index := by
  induction frags generalizing n with
  | nil => intro tc h; exact absurd h (List.not_mem_nil _)
  | cons f rest ih =>
    simp only [dense, Bool.and_eq_true, decide_eq_true_eq] at hd
    obtain ⟨⟨h0, -⟩, hrest⟩ := hd
    intro tc htc
    rcases List.mem_cons.mp htc with rfl | h
    · exact h0
    · exact ih _ hrest tc h

theorem View.adopt_idem (v : View) (chunk : StreamChunk) :
    (v.adopt chunk).adopt chunk = v.adopt chunk := by
  by_cases hv : v.ID = ""
  · by_cases hc : chunk.ID = "" <;> simp [View.adopt, hv, hc]
  · simp [View.adopt, hv]

theorem View.step_adopt (agentName : String) (v : View) (chunk : StreamChunk) :
    (v.adopt chunk).step agentName chunk = v.step agentName chunk := by
  rw [View.step_eq, View.step_eq]
  simp only [View.adopt_toolCalls, View.adopt_hasChoice, View.next, View.adopt_idem,
    View.adopt_content, View.adopt_finish, View.adopt_events]

/-- C3, counterexample: a first fragment with the index 1 fills the tool call
at position 0, while its event carries the item ID `r1-1`, so the events with
the item ID `r1-0` join to the empty text and not to the arguments `B1`; and
when a chunk without ID precedes the chunk that brings the ID `r`, the text
events with the item ID `r-0` join to `b` while the final content is `ab`. -/
theorem events_by_item_ID_counterexample :
    (∃ st, streamLoop sampleDecode "agent" {} ["data: b1"] = .ok st ∧
      st.resp.toolCalls[0]?
        = some { ID := "call_b", Typ := "function",
                 Function := { Name := "g", Arguments := "B1" } } ∧
      argsFor (st.resp.ID ++ "-" ++ formatInt 0) st.events = "") ∧
    (∃ st, streamLoop sampleDecode "agent" {} ["data: anon", "data: named"] = .ok st ∧
      st.resp.GetContent = "ab" ∧ textFor (st.resp.ID ++ "-0") st.events = "b") :=
  ⟨⟨{ resp := { ID := "r1", Model := "m",
                Choices := [{ Message := { Role := "assistant", ToolCalls :=
                  [{ ID := "call_b", Typ := "function",
                     Function := { Name := "g", Arguments := "B1" } }] } }] },
      events := [toolCallProgress "agent" { ID := "r1", Model := "m" }
                  { ID := "call_b", Typ := "function", Index := 1,
                    Function := { Name := "g", Arguments := "B1" } }] },
     by rfl, by rfl, by decide⟩,
   ⟨{ resp := { ID := "r", Model := "m2",
                Choices := [{ Message := { Role := "assistant", Content := "ab" } }] },
      events := [contentProgress "agent" { Model := "m1" } "a",
                 contentProgress "agent" { ID := "r", Model := "m2" } "b"] },
     by rfl, by rfl, by decide⟩⟩

/-- C3, amended: for every line stream the loop processes without failure and
whose first decoded chunk carries a non-empty ID, the text fragments of the
events with the item ID `<responseID>-0`, joined in emission order, equal the
final message content; and when moreover no delta text arrives after a
tool-call fragment and the fragments arrive densely (each index non-negative
and either below the number of slots already allocated or equal to it), then
for every final tool call at position `i` the argument fragments of the
tool-call events with the item ID `<responseID>-<i>`, joined in emission order,
equal that tool call's final arguments. -/
theorem events_reconstruct_response (decode : String → Option StreamChunk)
    (agentName : String) (lines : List String) (st : LoopState)
    (hrun : streamLoop decode agentName {} lines = .ok st)
    (hid : ∀ c ∈ (parsedChunks decode lines).head?, c.ID ≠ "") :
    textFor (st.resp.ID ++ "-0") st.events = st.resp.GetContent ∧
    (textBeforeFragments false (parsedChunks decode lines) = true →
      dense 0 (allFragments (parsedChunks decode lines)) = true →
      ∀ (i : Nat) (tc : ToolCall), st.resp.toolCalls[i]? = some tc →
        argsFor (st.resp.ID ++ "-" ++ formatInt (i : Int)) st.events
          = tc.Function.Arguments) := by
  have hfold := streamLoop_view decode agentName lines {} st hrun
  cases hchunks : parsedChunks decode lines with
  | nil =>
    rw [hchunks] at hfold
    simp only [View.fold] at hfold
    injection hfold with hfold
    have he : st.events = [] := by
      have := congrArg View.events hfold; simpa [viewOf] using this.symm
    have hc : st.resp.GetContent = "" := by
      have := congrArg View.content hfold; simpa [viewOf, Response.GetContent] using this.symm
    have ht : st.resp.toolCalls = [] := by
      have := congrArg View.toolCalls hfold; simpa [viewOf, Response.toolCalls] using this.symm
    refine ⟨by rw [he, hc]; rfl, ?_⟩
    intro _ _ i tc htc
    rw [ht] at htc
    simp at htc
  | cons c0 rest =>
    rw [hchunks] at hfold hid
    have hc0 : c0.ID ≠ "" := hid c0 (by simp)
    have hstart : (viewOf {}).fold agentName (c0 :: rest)
        = ((viewOf {}).adopt c0).fold agentName (c0 :: rest) := by
      simp only [View.fold, View.step_adopt]
    rw [hstart] at hfold
    have hwid : ((viewOf {}).adopt c0).ID = c0.ID := by simp [View.adopt, viewOf]
    have hwid' : ((viewOf {}).adopt c0).ID ≠ "" := by rw [hwid]; exact hc0
    obtain ⟨g1, -, g3, g4⟩ :=
      View.fold_fixed agentName (c0 :: rest) _ _ hwid' hfold
    have g1' : st.resp.ID = ((viewOf {}).adopt c0).ID := g1
    have g3' : st.resp.GetContent = concatAll ((c0 :: rest).map deltaTextOf) := by
      have : st.resp.GetContent = (viewOf st).content := rfl
      rw [this, g3]
      simp [viewOf, Response.GetContent]
    have g4' : st.events
        = (c0 :: rest).flatMap (chunkEvents agentName ((viewOf {}).adopt c0)) := by
      have : st.events = (viewOf st).events := rfl
      rw [this, g4]
      simp [viewOf]
    refine ⟨?_, ?_⟩
    · rw [g1', g3', g4', textFor_flatMap_chunkEvents]
    · intro horder hdense i tc htc
      have hacc := View.fold_fixed_toolCalls agentName (c0 :: rest) _ _ false hwid'
        (fun _ => by simp [viewOf, Response.toolCalls]) horder hfold
      have hw0 : ((viewOf {}).adopt c0).toolCalls = [] := by
        simp [viewOf, Response.toolCalls]
      rw [hw0] at hacc
      obtain ⟨out, hout, -, hslots⟩ := accumulate_dense_slots _ hdense
      rw [hacc] at hout
      injection hout with hout
      have htc2 : assembled (allFragments (c0 :: rest)) (i : Int) = some tc := by
        rw [← hslots i, ← hout]
        exact htc
      rw [g1', g4', argsFor_flatMap_chunkEvents agentName _ i _
        (dense_nonneg _ 0 hdense)]
      unfold assembled at htc2
      cases hw : withIndex (i : Int) (allFragments (c0 :: rest)) with
      | nil => simp [hw] at htc2
      | cons f more =>
        simp only [hw] at htc2
        injection htc2 with htc2
        rw [← htc2]

/-- Witness of the amended C3 on the sample stream of two interleaved tool
calls. -/
theorem events_reconstruct_response_witness :
    (∀ c ∈ (parsedChunks sampleDecode sampleToolLines).head?, c.ID ≠ "") ∧
    textBeforeFragments false (parsedChunks sampleDecode sampleToolLines) = true ∧
    dense 0 (allFragments (parsedChunks sampleDecode sampleToolLines)) = true ∧
    ∃ st, streamLoop sampleDecode "agent" {} sampleToolLines = .ok st ∧
      textFor (st.resp.ID ++ "-0") st.events = st.resp.GetContent ∧
      ∀ (i : Nat) (tc : ToolCall), st.resp.toolCalls[i]? = some tc →
        argsFor (st.resp.ID ++ "-" ++ formatInt (i : Int)) st.events
          = tc.Function.Arguments := by
  have h1 : ∀ c ∈ (parsedChunks sampleDecode sampleToolLines).head?, c.ID ≠ "" := by decide
  have h2 : textBeforeFragments false (parsedChunks sampleDecode sampleToolLines) = true := by
    decide
  have h3 : dense 0 (allFragments (parsedChunks sampleDecode sampleToolLines)) = true := by
    decide
  have hok : (streamLoop sampleDecode "agent" {} sampleToolLines).isOk = true := by decide
  refine ⟨h1, h2, h3, ?_⟩
  cases h : streamLoop sampleDecode "agent" {} sampleToolLines with
  | error e => rw [h] at hok; exact absurd hok (by simp [Except.isOk, Except.toBool])
  | ok st =>
    have := events_reconstruct_response sampleDecode "agent" sampleToolLines st h h1
    exact ⟨st, rfl, this.1, this.2 h2 h3⟩

/-! ## The request translator -/

theorem appendItem_eq (textMimeTypes : String → Bool) (base64Decode : String → String)
    (role : String) (messages : List Message) (input : CompletionItem) :
    appendItem textMimeTypes base64Decode role messages input
      = messages ++ itemMessages textMimeTypes base64Decode role input := by
  unfold appendItem itemMessages
  cases input.Content <;> cases input.ToolCall <;> cases input.ToolCallResult <;>
    simp only [List.append_nil, List.append_assoc, List.nil_append] <;>
    (try split) <;> simp

theorem foldl_appendItem (textMimeTypes : String → Bool) (base64Decode : String → String)
    (role : String) (items : List CompletionItem) (messages : List Message) :
    items.foldl (appendItem textMimeTypes base64Decode role) messages
      = messages ++ items.flatMap (itemMessages textMimeTypes base64Decode role) := by
  induction items generalizing messages with
  | nil => simp
  | cons item rest ih =>
    simp only [List.foldl_cons, ih, appendItem_eq, List.flatMap_cons, List.append_assoc]

theorem foldl_appendMessage (textMimeTypes : String → Bool)
    (base64Decode : String → String) (input : List GenericMessage)
    (messages : List Message) :
    input.foldl (appendMessage textMimeTypes base64Decode) messages
      = messages ++ inputMessages textMimeTypes base64Decode input := by
  induction input generalizing messages with
  | nil => simp [inputMessages]
  | cons msg rest ih =>
    simp only [List.foldl_cons, ih, appendMessage, foldl_appendItem, inputMessages,
      List.flatMap_cons, List.append_assoc]

theorem toRequest_messages (parseFloat : String → Float64) (textMimeTypes : String → Bool)
    (base64Decode : String → String) (req : CompletionRequest) :
    ∃ wire, toRequest parseFloat textMimeTypes base64Decode req = .ok wire ∧
      wire.Messages
        = systemMessages req.SystemPrompt ++ inputMessages textMimeTypes base64Decode req.Input :=
  ⟨_, rfl, by simp only [foldl_appendMessage, systemMessages]⟩

theorem convertContent_not_assistant (textMimeTypes : String → Bool)
    (base64Decode : String → String) (content : Content) (htype : content.Typ = "resource")
    (haud : ∀ res ann, content.Resource = some res → res.Annotations = some ann →
      "assistant" ∉ ann.Audience) :
    convertContent textMimeTypes base64Decode content = "" := by
  have hnone : assistantResource content = none := by
    unfold assistantResource
    rw [if_pos htype]
    cases hr : content.Resource with
    | none => rfl
    | some res =>
      cases ha : res.Annotations with
      | none => simp [ha]
      | some ann => simp [ha, haud res ann hr ha]
  have h1 : ¬ (content.Typ = "text" ∨ content.Typ = "") := by
    rw [htype]; decide
  have h2 : ¬ content.Typ = "image" := by rw [htype]; decide
  simp only [convertContent, h1, hnone, h2, if_false]

/-- C11: the max-tokens of the wire request built by `toRequest` is 4096 when
the request's `MaxTokens` is 0 and the request's `MaxTokens` otherwise. -/
theorem toRequest_maxTokens (parseFloat : String → Float64)
    (textMimeTypes : String → Bool) (base64Decode : String → String)
    (req : CompletionRequest) :
    ∃ wire, toRequest parseFloat textMimeTypes base64Decode req = .ok wire ∧
      wire.MaxTokens = if req.MaxTokens = 0 then 4096 else req.MaxTokens :=
  ⟨_, rfl, rfl⟩

/-- C12: a content block of type `resource` whose annotations do not list
`assistant` in the audience (a block without resource or without annotations
included) converts to the empty string whatever its MIME type, text or blob;
an item carrying only that content appends no wire message, and a request
whose input is one message with that one item gets no wire message besides the
system message. -/
theorem resource_for_other_audience_is_dropped (textMimeTypes : String → Bool)
    (base64Decode : String → String) (content : Content)
    (htype : content.Typ = "resource")
    (haud : ∀ res ann, content.Resource = some res → res.Annotations = some ann →
      "assistant" ∉ ann.Audience) :
    convertContent textMimeTypes base64Decode content = "" ∧
    (∀ (item : CompletionItem) (role : String) (messages : List Message),
      item.Content = some content → item.ToolCall = none → item.ToolCallResult = none →
      appendItem textMimeTypes base64Decode role messages item = messages) ∧
    (∀ (parseFloat : String → Float64) (req : CompletionRequest) (msg : GenericMessage)
      (item : CompletionItem),
      item.Content = some content → item.ToolCall = none → item.ToolCallResult = none →
      msg.Items = [item] → req.Input = [msg] →
      ∃ wire, toRequest parseFloat textMimeTypes base64Decode req = .ok wire ∧
        wire.Messages = systemMessages req.SystemPrompt) := by
  have hconv := convertContent_not_assistant textMimeTypes base64Decode content htype haud
  have hitem : ∀ (item : CompletionItem) (role : String),
      item.Content = some content → item.ToolCall = none → item.ToolCallResult = none →
      itemMessages textMimeTypes base64Decode role item = [] := by
    intro item role h1 h2 h3
    simp [itemMessages, h1, h2, h3, hconv]
  refine ⟨hconv, ?_, ?_⟩
  · intro item role messages h1 h2 h3
    rw [appendItem_eq, hitem item role h1 h2 h3, List.append_nil]
  · intro parseFloat req msg item h1 h2 h3 hm hr
    obtain ⟨wire, hw, hmsgs⟩ := toRequest_messages parseFloat textMimeTypes base64Decode req
    refine ⟨wire, hw, ?_⟩
    rw [hmsgs, hr]
    simp [inputMessages, hm, hitem item msg.Role h1 h2 h3]

/-- Witness of C12: a text resource annotated for the user only. -/
theorem resource_for_other_audience_is_dropped_witness :
    convertContent sampleTextMime sampleBase64
      { Typ := "resource",
        Resource := some { URI := "file:///notes.txt", MIMEType := "text/plain",
                           Text := "secret", Blob := "aGk=",
                           Annotations := some { Audience := ["user"] } } } = "" :=
  (resource_for_other_audience_is_dropped sampleTextMime sampleBase64 _ rfl (by
    intro res ann hr ha
    injection hr with hr
    subst hr
    injection ha with ha
    subst ha
    decide)).1

theorem assistantResource_marked (content : Content) (res : EmbeddedResource)
    (ann : Annotations) (htype : content.Typ = "resource")
    (hres : content.Resource = some res) (hann : res.Annotations = some ann)
    (haud : "assistant" ∈ ann.Audience) : assistantResource content = some res := by
  simp [assistantResource, htype, hres, hann, haud]

/-- C13, counterexample: a binary resource block without annotations fails the
audience test, and `convertContent` returns the empty string for it, not the
bracketed reference to its URI. -/
theorem unmarked_resource_counterexample :
    convertContent sampleTextMime sampleBase64
        { Typ := "resource",
          Resource := some { URI := "file:///a.bin", MIMEType := "application/octet-stream",
                             Blob := "aGk=" } } = "" ∧
    convertContent sampleTextMime sampleBase64
        { Typ := "resource",
          Resource := some { URI := "file:///a.bin", MIMEType := "application/octet-stream",
                             Blob := "aGk=" } } ≠ "[Resource: " ++ "file:///a.bin" ++ "]" :=
  ⟨by decide, by decide⟩

/-- C13, amended: a resource content block that is explicitly marked for the
assistant audience and whose declared MIME type is not a recognised text type
converts to the bracketed reference `[Resource: <URI>]`; a resource content
block that is not marked for the assistant audience converts to the empty
string; neither result takes anything from the resource's text or blob. -/
theorem resource_reference_or_nothing (textMimeTypes : String → Bool)
    (base64Decode : String → String) (content : Content) (res : EmbeddedResource)
    (htype : content.Typ = "resource") (hres : content.Resource = some res) :
    (∀ ann, res.Annotations = some ann → "assistant" ∈ ann.Audience →
      textMimeTypes res.MIMEType = false →
      convertContent textMimeTypes base64Decode content = "[Resource: " ++ res.URI ++ "]") ∧
    ((∀ ann, res.Annotations = some ann → "assistant" ∉ ann.Audience) →
      convertContent textMimeTypes base64Decode content = "") := by
  constructor
  · intro ann hann haud hmime
    have h1 : ¬ (content.Typ = "text" ∨ content.Typ = "") := by
      rw [htype]; decide
    simp [convertContent, h1, assistantResource_marked content res ann htype hres hann haud,
      hmime]
  · intro haud
    apply convertContent_not_assistant textMimeTypes base64Decode content htype
    intro res1 ann hr ha
    rw [hres] at hr
    injection hr with hr
    subst hr
    exact haud ann ha

/-- Witness of the amended C13: a binary resource marked for the assistant. -/
theorem resource_reference_or_nothing_witness :
    convertContent sampleTextMime sampleBase64
      { Typ := "resource",
        Resource := some { URI := "file:///a.bin", MIMEType := "application/octet-stream",
                           Blob := "aGk=", Annotations := some { Audience := ["assistant"] } } }
      = "[Resource: " ++ "file:///a.bin" ++ "]" :=
  (resource_reference_or_nothing sampleTextMime sampleBase64 _ _ rfl rfl).1
    { Audience := ["assistant"] } rfl (by decide) (by decide)

/-- C17: a content block of type `image` converts to the fixed placeholder
whatever image data and MIME type it carries, and an item carrying only that
content appends exactly one wire message, with the role of the enclosing
message and the placeholder as content. -/
theorem image_becomes_placeholder (textMimeTypes : String → Bool)
    (base64Decode : String → String) (content : Content) (htype : content.Typ = "image") :
    convertContent textMimeTypes base64Decode content
      = "[Image content not supported in text format]" ∧
    (∀ (item : CompletionItem) (role : String) (messages : List Message),
      item.Content = some content → item.ToolCall = none → item.ToolCallResult = none →
      appendItem textMimeTypes base64Decode role messages item
        = messages ++ [{ Role := role,
                         Content := "[Image content not supported in text format]" }]) ∧
    (∀ (parseFloat : String → Float64) (req : CompletionRequest) (msg : GenericMessage)
      (item : CompletionItem),
      item.Content = some content → item.ToolCall = none → item.ToolCallResult = none →
      msg.Items = [item] → req.Input = [msg] →
      ∃ wire, toRequest parseFloat textMimeTypes base64Decode req = .ok wire ∧
        wire.Messages = systemMessages req.SystemPrompt ++
          [{ Role := msg.Role, Content := "[Image content not supported in text format]" }]) := by
  have h1 : ¬ (content.Typ = "text" ∨ content.Typ = "") := by
    rw [htype]; decide
  have h2 : assistantResource content = none := by
    have : ¬ content.Typ = "resource" := by rw [htype]; decide
    simp [assistantResource, this]
  have hconv : convertContent textMimeTypes base64Decode content
      = "[Image content not supported in text format]" := by
    unfold convertContent
    rw [if_neg h1, h2]
    simp [htype]
  have hne : ¬ ("[Image content not supported in text format]" = "") := by decide
  refine ⟨hconv, ?_, ?_⟩
  · intro item role messages hc ht hr
    simp [appendItem, hc, ht, hr, hconv, hne]
  · intro parseFloat req msg item hc ht hr hm hi
    obtain ⟨wire, hw, hmsgs⟩ := toRequest_messages parseFloat textMimeTypes base64Decode req
    refine ⟨wire, hw, ?_⟩
    rw [hmsgs, hi]
    simp [inputMessages, hm, itemMessages, hc, ht, hr, hconv, hne]

/-- Witness of C17: an image block with PNG data. -/
theorem image_becomes_placeholder_witness :
    convertContent sampleTextMime sampleBase64
      { Typ := "image", Data := "iVBORw0KGgo=", MIMEType := "image/png" }
      = "[Image content not supported in text format]" :=
  (image_becomes_placeholder sampleTextMime sampleBase64 _ rfl).1

/-- C18: the wire messages built by `toRequest` are the optional system
message followed by the in-order concatenation, over the input messages and
over the items of each message, of the messages produced per item: for its
content one message with the role of the enclosing message and the converted
text, when that text is non-empty; for its tool call one assistant message
with a single tool call of type `function` and the ID, name and arguments of
the call; for its tool result one tool message. -/
theorem toRequest_flattens_in_order (parseFloat : String → Float64)
    (textMimeTypes : String → Bool) (base64Decode : String → String)
    (req : CompletionRequest) :
    ∃ wire, toRequest parseFloat textMimeTypes base64Decode req = .ok wire ∧
      wire.Messages.take (systemMessages req.SystemPrompt).length
        = systemMessages req.SystemPrompt ∧
      wire.Messages.drop (systemMessages req.SystemPrompt).length
        = (req.Input.map fun msg =>
            (msg.Items.map fun item =>
              itemMessages textMimeTypes base64Decode msg.Role item).flatten).flatten := by
  obtain ⟨wire, hw, hmsgs⟩ := toRequest_messages parseFloat textMimeTypes base64Decode req
  refine ⟨wire, hw, ?_, ?_⟩
  · rw [hmsgs, List.take_left']
    rfl
  · rw [hmsgs, List.drop_left']
    · simp [inputMessages, List.flatMap]
    · rfl

/-! ## Tool results and the response translator -/

theorem string_append_ne_empty (acc x : String) (h : acc ≠ "") : acc ++ x ≠ "" := by
  intro he
  apply h
  have hd := congrArg String.data he
  simp only [String.data_append] at hd
  have : acc.data = [] := (List.append_eq_nil.mp hd).1
  exact String.ext this

theorem textBlocks_cons_text (content : Content) (rest : List Content)
    (h : content.Typ = "text") : textBlocks (content :: rest) = content.Text :: textBlocks rest := by
  simp [textBlocks, h]

theorem textBlocks_cons_other (content : Content) (rest : List Content)
    (h : content.Typ ≠ "text") : textBlocks (content :: rest) = textBlocks rest := by
  simp [textBlocks, h]

theorem joinLines_cons_cons (s t : String) (rest : List String) :
    joinLines (s :: t :: rest) = s ++ "\n" ++ joinLines (t :: rest) := rfl

theorem joinLines_merge (acc t : String) (rest : List String) :
    joinLines ((acc ++ "\n" ++ t) :: rest) = joinLines (acc :: t :: rest) := by
  cases rest with
  | nil => rfl
  | cons u more =>
    simp only [joinLines_cons_cons, String.append_assoc]

theorem resultContent_of_nonempty (blocks : List Content) (acc : String) (h : acc ≠ "") :
    resultContent acc blocks = joinLines (acc :: textBlocks blocks) := by
  induction blocks generalizing acc with
  | nil => rfl
  | cons content rest ih =>
    by_cases ht : content.Typ = "text"
    · simp only [resultContent, ht, if_true, ne_eq, h, not_false_eq_true]
      rw [ih _ (string_append_ne_empty _ _ (string_append_ne_empty _ _ h)),
        textBlocks_cons_text content rest ht, joinLines_merge]
    · simp only [resultContent, ht, if_false]
      rw [ih acc h, textBlocks_cons_other content rest ht]

theorem resultContent_empty (blocks : List Content) :
    resultContent "" blocks = joinLines ((textBlocks blocks).dropWhile (· = "")) := by
  induction blocks with
  | nil => rfl
  | cons content rest ih =>
    by_cases ht : content.Typ = "text"
    · rw [textBlocks_cons_text content rest ht]
      by_cases he : content.Text = ""
      · simp only [resultContent, ht, if_true, ne_eq, not_true_eq_false, if_false, he,
          String.append_empty, List.dropWhile_cons, decide_True]
        exact ih
      · simp only [resultContent, ht, if_true, ne_eq, not_true_eq_false, if_false,
          String.empty_append, List.dropWhile_cons, he, decide_False]
        exact resultContent_of_nonempty rest _ he
    · simp only [resultContent, ht, if_false]
      rw [ih, textBlocks_cons_other content rest ht]

/-- C14, counterexample: for the two text blocks with the texts `""` and `b`
the tool message gets the content `b`, while joining the two texts with one
newline between them gives a newline followed by `b`. -/
theorem leading_empty_text_counterexample :
    resultContent "" [{ Typ := "text", Text := "" }, { Typ := "text", Text := "b" }] = "b" ∧
    joinLines (textBlocks [{ Typ := "text", Text := "" }, { Typ := "text", Text := "b" }])
      = "\nb" ∧
    resultContent "" [{ Typ := "text", Text := "" }, { Typ := "text", Text := "b" }]
      ≠ joinLines (textBlocks [{ Typ := "text", Text := "" }, { Typ := "text", Text := "b" }]) :=
  ⟨by decide, by decide, by decide⟩

/-- C14, amended: for every tool-invocation-result item the last wire message
`toRequest` appends for it is a tool-role message whose correlation ID is the
result's call ID and whose content is the texts of the text-typed content
blocks of the result's output, in order and non-text blocks skipped, with the
leading empty texts dropped and exactly one newline between each pair of
consecutive remaining texts; when the first text block is non-empty this is
the newline-join of all the text blocks. -/
theorem tool_result_message (textMimeTypes : String → Bool)
    (base64Decode : String → String) (result : ToolCallResult) :
    resultContent "" result.Output.Content
      = joinLines ((textBlocks result.Output.Content).dropWhile (· = "")) ∧
    ((∀ t ∈ (textBlocks result.Output.Content).head?, t ≠ "") →
      resultContent "" result.Output.Content = joinLines (textBlocks result.Output.Content)) ∧
    (∀ (item : CompletionItem) (role : String) (messages : List Message),
      item.ToolCallResult = some result →
      (appendItem textMimeTypes base64Decode role messages item).getLast?
        = some { Role := "tool",
                 Content := joinLines ((textBlocks result.Output.Content).dropWhile (· = "")),
                 ToolCallID := result.CallID }) := by
  refine ⟨resultContent_empty _, ?_, ?_⟩
  · intro hhead
    rw [resultContent_empty]
    cases htb : textBlocks result.Output.Content with
    | nil => rfl
    | cons t rest =>
      have : t ≠ "" := hhead t (by simp [htb])
      simp [List.dropWhile_cons, this]
  · intro item role messages hr
    rw [appendItem_eq]
    simp [itemMessages, hr, resultContent_empty]

/-- Witness of the amended C14: a result with two text blocks around an image
block. -/
theorem tool_result_message_witness :
    (appendItem sampleTextMime sampleBase64 "user" []
      { ToolCallResult := some
          { CallID := "call_a",
            Output := { Content := [{ Typ := "text", Text := "a" }, { Typ := "image" },
                                    { Typ := "text", Text := "b" }] } } }).getLast?
      = some { Role := "tool", Content := "a\nb", ToolCallID := "call_a" } :=
  (tool_result_message sampleTextMime sampleBase64
    { CallID := "call_a",
      Output := { Content := [{ Typ := "text", Text := "a" }, { Typ := "image" },
                              { Typ := "text", Text := "b" }] } }).2.2 _ "user" [] rfl

theorem toolCallItems_length (respID : String) (tcs : List ToolCall) (k : Nat) :
    (toolCallItems respID k tcs).length = tcs.length := by
  induction tcs generalizing k with
  | nil => rfl
  | cons tc rest ih => simp [toolCallItems, ih]

theorem toolCallItems_getElem? (respID : String) (tcs : List ToolCall) (k i : Nat) :
    (toolCallItems respID k tcs)[i]? = tcs[i]?.map (toolCallItem respID (k + i)) := by
  induction tcs generalizing k i with
  | nil => simp [toolCallItems]
  | cons tc rest ih =>
    cases i with
    | zero => simp [toolCallItems, toolCallItem]
    | succ j =>
      have hk : k + 1 + j = k + (j + 1) := by omega
      simp only [toolCallItems, List.getElem?_cons_succ, ih, hk]

theorem toolCallItems_IDs (respID : String) (tcs : List ToolCall) (k : Nat) :
    (toolCallItems respID k tcs).map (·.ID)
      = (List.range' k tcs.length).map fun (i : Nat) => respID ++ "-" ++ formatInt (i : Int) := by
  induction tcs generalizing k with
  | nil => rfl
  | cons tc rest ih =>
    simp [toolCallItems, ih, List.range'_succ]

theorem toolCallItems_IDs_nodup (respID : String) (tcs : List ToolCall) (k : Nat) :
    ((toolCallItems respID k tcs).map (·.ID)).Nodup := by
  rw [toolCallItems_IDs]
  apply List.Nodup.map _ (List.nodup_range' k tcs.length)
  intro a b hab
  exact formatInt_injective_nat a b (string_append_cancel_left _ _ _ hab)

theorem textItem_ID (respID : String) : respID ++ "-0" = respID ++ "-" ++ formatInt ((0 : Nat) : Int) := by
  rw [String.append_assoc]
  rfl

theorem toResponse_items (resp : Response) (created : Int) :
    ∃ out, toResponse resp created = .ok out ∧ out.Model = resp.Model ∧
      out.Output.ID = resp.ID ∧ out.Output.Created = some created ∧
      out.Output.Role = "assistant" ∧
      out.Output.Items =
        match resp.Choices with
        | [] => []
        | choice :: _ =>
          (if choice.Message.Content ≠ "" then [textItem resp.ID choice.Message.Content]
            else []) ++ toolCallItems resp.ID 0 choice.Message.ToolCalls := by
  unfold toResponse
  cases resp.Choices with
  | nil => exact ⟨_, rfl, rfl, rfl, rfl, rfl, rfl⟩
  | cons choice rest => exact ⟨_, rfl, rfl, rfl, rfl, rfl, rfl⟩

/-- C15: for every wire response and time stamp `toResponse` returns without
error a generic response whose item list is empty when the response has no
choice, and otherwise is the text item `<responseID>-0` with the first
choice's content, present exactly when that content is non-empty, followed by
one tool-call item per accumulated tool call, in list order, the `i`-th with
the ID `<responseID>-<i>` and the call ID, name and arguments of the tool
call; so the item count is the tool-call count, plus one when the content is
non-empty. -/
theorem toResponse_item_list (resp : Response) (created : Int) :
    ∃ out, toResponse resp created = .ok out ∧
      (resp.Choices = [] → out.Output.Items = []) ∧
      (∀ choice rest, resp.Choices = choice :: rest →
        ∃ toolItems,
          out.Output.Items =
            (if choice.Message.Content ≠ "" then [textItem resp.ID choice.Message.Content]
              else []) ++ toolItems ∧
          toolItems.length = choice.Message.ToolCalls.length ∧
          (∀ (i : Nat) (tc : ToolCall), choice.Message.ToolCalls[i]? = some tc →
            toolItems[i]? = some (toolCallItem resp.ID i tc)) ∧
          out.Output.Items.length = choice.Message.ToolCalls.length +
            (if choice.Message.Content ≠ "" then 1 else 0)) := by
  obtain ⟨out, hout, -, -, -, -, hitems⟩ := toResponse_items resp created
  refine ⟨out, hout, ?_, ?_⟩
  · intro hc
    rw [hitems, hc]
  · intro choice rest hc
    rw [hc] at hitems
    refine ⟨toolCallItems resp.ID 0 choice.Message.ToolCalls, hitems,
      toolCallItems_length _ _ _, ?_, ?_⟩
    · intro i tc htc
      rw [toolCallItems_getElem?, htc]
      simp
    · rw [hitems, List.length_append, toolCallItems_length]
      by_cases h : choice.Message.Content = "" <;> simp [h]
      omega

/-- Witness of C15: a response with the text `Hi` and two tool calls gives
three items. -/
theorem toResponse_item_list_witness :
    ∃ out, toResponse
        { ID := "r1", Model := "m",
          Choices := [{ Message := { Role := "assistant", Content := "Hi", ToolCalls :=
            [{ ID := "call_a", Typ := "function", Function := { Name := "f", Arguments := "A" } },
             { ID := "call_b", Typ := "function",
               Function := { Name := "g", Arguments := "B" } }] } }] } 7 = .ok out ∧
      out.Output.Items.length = 3 := by
  obtain ⟨out, hout, -, h⟩ := toResponse_item_list
    { ID := "r1", Model := "m",
      Choices := [{ Message := { Role := "assistant", Content := "Hi", ToolCalls :=
        [{ ID := "call_a", Typ := "function", Function := { Name := "f", Arguments := "A" } },
         { ID := "call_b", Typ := "function",
           Function := { Name := "g", Arguments := "B" } }] } }] } 7
  obtain ⟨toolItems, -, -, -, hlen⟩ := h _ _ rfl
  exact ⟨out, hout, by rw [hlen]; decide⟩

theorem toResponse_items_eq (resp : Response) (created : Int) (out : CompletionResponse)
    (h : toResponse resp created = .ok out) :
    out.Output.Items =
      (if resp.GetContent ≠ "" then [textItem resp.ID resp.GetContent] else []) ++
        toolCallItems resp.ID 0 resp.toolCalls := by
  obtain ⟨out1, hout, -, -, -, -, hitems⟩ := toResponse_items resp created
  rw [h] at hout
  injection hout with hout
  subst hout
  rw [hitems]
  cases hc : resp.Choices with
  | nil => simp [Response.GetContent, Response.toolCalls, hc, toolCallItems]
  | cons choice rest => simp [Response.GetContent, Response.toolCalls, hc]

/-- C20: the item IDs of the generic response returned by `toResponse` are
pairwise distinct if and only if it is not the case that the first choice has
both non-empty content and at least one tool call: the tool-call items always
have pairwise distinct IDs, and when both exist the text item comes first, the
item of the tool call at position 0 second, and the two carry the same ID. -/
theorem toResponse_IDs_distinct_iff (resp : Response) (created : Int)
    (out : CompletionResponse) (h : toResponse resp created = .ok out) :
    ((out.Output.Items.map (·.ID)).Nodup ↔
      ¬ (resp.GetContent ≠ "" ∧ resp.toolCalls ≠ [])) ∧
    ((toolCallItems resp.ID 0 resp.toolCalls).map (·.ID)).Nodup ∧
    (resp.GetContent ≠ "" → ∀ tc rest, resp.toolCalls = tc :: rest →
      out.Output.Items[0]? = some (textItem resp.ID resp.GetContent) ∧
      out.Output.Items[1]? = some (toolCallItem resp.ID 0 tc) ∧
      (textItem resp.ID resp.GetContent).ID = (toolCallItem resp.ID 0 tc).ID) := by
  have hitems := toResponse_items_eq resp created out h
  have hnodup := toolCallItems_IDs_nodup resp.ID resp.toolCalls 0
  refine ⟨?_, hnodup, ?_⟩
  · rw [hitems]
    by_cases hc : resp.GetContent = ""
    · simp only [hc, ne_eq, not_true_eq_false, if_false, List.nil_append, false_and,
        not_false_eq_true, iff_true]
      exact hnodup
    · simp only [ne_eq, hc, not_false_eq_true, if_true, List.singleton_append, List.map_cons,
        List.nodup_cons, true_and, not_not]
      constructor
      · rintro ⟨hnot, -⟩
        cases htc : resp.toolCalls with
        | nil => rfl
        | cons tc rest =>
          exfalso
          apply hnot
          rw [htc]
          simp only [toolCallItems, List.map_cons, List.mem_cons]
          left
          exact textItem_ID resp.ID
      · intro htc
        rw [htc]
        simp [toolCallItems]
  · intro hc tc rest htc
    rw [hitems, htc]
    simp only [ne_eq, hc, not_false_eq_true, if_true, toolCallItems]
    refine ⟨rfl, by simp [toolCallItem], ?_⟩
    exact textItem_ID resp.ID

/-- Witness of C20: a response with the text `Hi` and one tool call gives two
items whose IDs are not pairwise distinct. -/
theorem toResponse_IDs_distinct_iff_witness :
    ∃ out, toResponse sampleResponse 7 = .ok out ∧
      ¬ (out.Output.Items.map (·.ID)).Nodup := by
  obtain ⟨out, hout, -⟩ := toResponse_items sampleResponse 7
  refine ⟨out, hout, ?_⟩
  rw [(toResponse_IDs_distinct_iff sampleResponse 7 out hout).1]
  decide

/-! ## Out-of-range accesses of the loop body -/

theorem applyFragment_ok_of_nonneg (tcs : List ToolCall) (tc : ToolCall) (h : 0 ≤ tc.Index) :
    ∃ out, applyFragment tcs tc = .ok out := by
  by_cases hl : (tcs.length : Int) ≤ tc.Index
  · exact ⟨_, applyFragment_new tcs tc hl⟩
  · exact ⟨_, applyFragment_old tcs tc h (by omega)⟩

theorem accumulate_error_iff (frags : List ToolCall) (tcs : List ToolCall) :
    (∃ e, accumulate tcs frags = .error e) ↔ ∃ tc ∈ frags, tc.Index < 0 := by
  induction frags generalizing tcs with
  | nil => simp [accumulate]
  | cons tc rest ih =>
    by_cases hneg : tc.Index < 0
    · simp only [accumulate, applyFragment_negative tcs tc hneg]
      constructor
      · intro _
        exact ⟨tc, List.mem_cons_self _ _, hneg⟩
      · intro _
        exact ⟨_, rfl⟩
    · obtain ⟨out, hout⟩ := applyFragment_ok_of_nonneg tcs tc (by omega)
      simp only [accumulate, hout, ih out, List.mem_cons]
      constructor
      · rintro ⟨t, ht, hlt⟩
        exact ⟨t, Or.inr ht, hlt⟩
      · rintro ⟨t, ht | ht, hlt⟩
        · exact absurd (ht ▸ hlt) hneg
        · exact ⟨t, ht, hlt⟩

theorem View.step_error_iff (agentName : String) (v : View) (chunk : StreamChunk) :
    (∃ e, v.step agentName chunk = .error e) ↔
      ((∃ tc ∈ fragmentsOf chunk, tc.Index < 0) ∨
        (finishOf chunk ≠ "" ∧ v.hasChoice = false ∧ deltaTextOf chunk = "" ∧
          fragmentsOf chunk = [])) := by
  rw [View.step_eq, ← accumulate_error_iff (fragmentsOf chunk)
    (if deltaTextOf chunk ≠ "" then [] else v.toolCalls)]
  cases hacc : accumulate (if deltaTextOf chunk ≠ "" then [] else v.toolCalls)
      (fragmentsOf chunk) with
  | error e =>
    constructor
    · intro _; exact Or.inl ⟨e, rfl⟩
    · intro _; exact ⟨e, rfl⟩
  | ok tcs =>
    dsimp only
    by_cases hg : finishOf chunk ≠ "" ∧ v.hasChoice = false ∧ deltaTextOf chunk = "" ∧
        fragmentsOf chunk = []
    · rw [if_pos hg]
      constructor
      · intro _; exact Or.inr hg
      · intro _; exact ⟨_, rfl⟩
    · rw [if_neg hg]
      constructor
      · rintro ⟨e, he⟩; exact Except.noConfusion he
      · rintro (⟨e, he⟩ | h)
        · exact Except.noConfusion he
        · exact absurd h hg

theorem processChunk_error_iff_view (agentName : String) (st : LoopState)
    (chunk : StreamChunk) :
    (∃ e, processChunk agentName st chunk = .error e) ↔
      ∃ e, (viewOf st).step agentName chunk = .error e := by
  rw [← viewOf_processChunk]
  cases processChunk agentName st chunk with
  | error e =>
    constructor
    · intro _; exact ⟨e, rfl⟩
    · intro _; exact ⟨e, rfl⟩
  | ok st1 =>
    constructor
    · rintro ⟨e, he⟩; exact Except.noConfusion he
    · rintro ⟨e, he⟩; exact Except.noConfusion he

theorem viewOf_hasChoice_false (st : LoopState) :
    (viewOf st).hasChoice = false ↔ st.resp.Choices = [] := by
  cases h : st.resp.Choices <;> simp [viewOf, h]

theorem View.fold_total (agentName : String) (chunks : List StreamChunk) (v : View)
    (hnn : ∀ tc ∈ allFragments chunks, 0 ≤ tc.Index)
    (hfin : finishAfterMessage v.hasChoice chunks = true) :
    ∃ v1, v.fold agentName chunks = .ok v1 := by
  induction chunks generalizing v with
  | nil => exact ⟨v, rfl⟩
  | cons chunk rest ih =>
    rw [allFragments_cons] at hnn
    simp only [finishAfterMessage, Bool.and_eq_true, Bool.or_eq_true, decide_eq_true_eq] at hfin
    obtain ⟨hguard, hrest⟩ := hfin
    have hno : ¬ ∃ e, v.step agentName chunk = .error e := by
      rw [View.step_error_iff]
      rintro (⟨tc, htc, hlt⟩ | ⟨h1, h2, h3, h4⟩)
      · have := hnn tc (List.mem_append_left _ htc)
        omega
      · rcases hguard with ((h | h) | h) | h
        · exact h1 h
        · rw [h2] at h; exact Bool.noConfusion h
        · exact h h3
        · exact h h4
    cases hs : v.step agentName chunk with
    | error e => exact absurd ⟨e, hs⟩ hno
    | ok v2 =>
      simp only [View.fold, hs]
      apply ih v2 (fun tc htc => hnn tc (List.mem_append_right _ htc))
      have hv2 : v2.hasChoice = (v.hasChoice || decide (deltaTextOf chunk ≠ "") ||
          decide (fragmentsOf chunk ≠ [])) := by
        rw [View.step_eq] at hs
        cases hacc : accumulate (if deltaTextOf chunk ≠ "" then [] else v.toolCalls)
            (fragmentsOf chunk) with
        | error e => rw [hacc] at hs; exact Except.noConfusion hs
        | ok tcs =>
          rw [hacc] at hs
          dsimp only at hs
          split at hs
          · exact Except.noConfusion hs
          · injection hs with hs
            rw [← hs]
            rfl
      rw [hv2]
      exact hrest

/-- C19: on every state and every decoded chunk with at least one choice, the
loop body fails with an out-of-range access exactly when some tool-call
fragment of the first choice has a negative index, or the first choice carries
a non-empty finish reason while the state has no choice, the delta text is
empty and the delta has no fragment; so when all fragment indices are
non-negative and the finish reason comes with or after a content or tool-call
delta the step is total, and a whole stream with non-negative indices in which
every finish reason arrives once the assembled message exists is processed to
completion. -/
theorem processChunk_fails_iff (agentName : String) (st : LoopState) (chunk : StreamChunk)
    (choice : Choice) (rest : List Choice) (hc : chunk.Choices = choice :: rest) :
    ((∃ e, processChunk agentName st chunk = .error e) ↔
      ((∃ tc ∈ choice.Delta.ToolCalls, tc.Index < 0) ∨
        (choice.FinishReason ≠ "" ∧ st.resp.Choices = [] ∧ choice.Delta.Content = "" ∧
          choice.Delta.ToolCalls = []))) ∧
    ((∀ tc ∈ choice.Delta.ToolCalls, 0 ≤ tc.Index) →
      (choice.FinishReason ≠ "" →
        st.resp.Choices ≠ [] ∨ choice.Delta.Content ≠ "" ∨ choice.Delta.ToolCalls ≠ []) →
      ∃ st1, processChunk agentName st chunk = .ok st1) ∧
    (∀ (decode : String → Option StreamChunk) (lines : List String),
      (∀ tc ∈ allFragments (parsedChunks decode lines), 0 ≤ tc.Index) →
      finishAfterMessage false (parsedChunks decode lines) = true →
      ∃ st1, streamLoop decode agentName {} lines = .ok st1) := by
  have hiff : (∃ e, processChunk agentName st chunk = .error e) ↔
      ((∃ tc ∈ choice.Delta.ToolCalls, tc.Index < 0) ∨
        (choice.FinishReason ≠ "" ∧ st.resp.Choices = [] ∧ choice.Delta.Content = "" ∧
          choice.Delta.ToolCalls = [])) := by
    rw [processChunk_error_iff_view, View.step_error_iff, viewOf_hasChoice_false]
    simp only [fragmentsOf, finishOf, deltaTextOf, hc]
  refine ⟨hiff, ?_, ?_⟩
  · intro hnn hfin
    cases hp : processChunk agentName st chunk with
    | ok st1 => exact ⟨st1, rfl⟩
    | error e =>
      exfalso
      rcases hiff.mp ⟨e, hp⟩ with ⟨tc, htc, hlt⟩ | ⟨h1, h2, h3, h4⟩
      · have := hnn tc htc
        omega
      · rcases hfin h1 with h | h | h
        · exact h h2
        · exact h h3
        · exact h h4
  · intro decode lines hnn hfin
    obtain ⟨v1, hv1⟩ := View.fold_total agentName (parsedChunks decode lines) (viewOf {})
      hnn hfin
    rw [← viewOf_streamLoop] at hv1
    obtain ⟨st1, hst1, -⟩ := except_map_eq_ok _ _ _ hv1
    exact ⟨st1, hst1⟩

/-- Witness of C19: on the empty state, a chunk whose first choice carries
only the finish reason `stop` fails, and so does a chunk with a fragment of
index -1. -/
theorem processChunk_fails_iff_witness :
    (∃ e, processChunk "agent" {} { ID := "r1", Choices := [{ FinishReason := "stop" }] }
      = .error e) ∧
    (∃ e, processChunk "agent" {}
      { ID := "r1", Choices := [{ Delta := { ToolCalls := [{ Index := -1 }] } }] }
      = .error e) :=
  ⟨(processChunk_fails_iff "agent" {} { ID := "r1", Choices := [{ FinishReason := "stop" }] }
      { FinishReason := "stop" } [] rfl).1.mpr
      (Or.inr ⟨by decide, rfl, rfl, rfl⟩),
   (processChunk_fails_iff "agent" {}
      { ID := "r1", Choices := [{ Delta := { ToolCalls := [{ Index := -1 }] } }] }
      { Delta := { ToolCalls := [{ Index := -1 }] } } [] rfl).1.mpr
      (Or.inl ⟨{ Index := -1 }, by simp, by decide⟩)⟩

/-! ## The fragment loop inside the stream loop -/

theorem foldChunks_append (agentName : String) (chunks1 chunks2 : List StreamChunk)
    (st : LoopState) :
    foldChunks agentName st (chunks1 ++ chunks2) =
      match foldChunks agentName st chunks1 with
      | .error e => .error e
      | .ok st1 => foldChunks agentName st1 chunks2 := by
  induction chunks1 generalizing st with
  | nil => rfl
  | cons chunk rest ih =>
    simp only [List.cons_append, foldChunks]
    cases processChunk agentName st chunk with
    | error e => rfl
    | ok st1 => exact ih st1

theorem allFragments_append (chunks1 chunks2 : List StreamChunk) :
    allFragments (chunks1 ++ chunks2) = allFragments chunks1 ++ allFragments chunks2 := by
  simp [allFragments]

theorem textBeforeFragments_append (chunks1 chunks2 : List StreamChunk) (seen : Bool) :
    textBeforeFragments seen (chunks1 ++ chunks2) =
      (textBeforeFragments seen chunks1 &&
        textBeforeFragments (seen || decide (allFragments chunks1 ≠ [])) chunks2) := by
  induction chunks1 generalizing seen with
  | nil => simp [textBeforeFragments, allFragments]
  | cons chunk rest ih =>
    simp only [List.cons_append, textBeforeFragments, List.append_eq, ih, Bool.and_assoc,
      allFragments_cons]
    congr 2
    cases seen <;> cases h : fragmentsOf chunk <;> simp

theorem View.step_toolCalls (agentName : String) (v v1 : View) (chunk : StreamChunk)
    (h : v.step agentName chunk = .ok v1) :
    accumulate (if deltaTextOf chunk ≠ "" then [] else v.toolCalls) (fragmentsOf chunk)
      = .ok v1.toolCalls := by
  rw [View.step_eq] at h
  cases hacc : accumulate (if deltaTextOf chunk ≠ "" then [] else v.toolCalls)
      (fragmentsOf chunk) with
  | error e => rw [hacc] at h; exact Except.noConfusion h
  | ok tcs =>
    rw [hacc] at h
    dsimp only at h
    split at h
    · exact Except.noConfusion h
    · injection h with h
      rw [← h]
      rfl

theorem View.fold_toolCalls (agentName : String) (chunks : List StreamChunk)
    (v v1 : View) (seen : Bool) (hseen : seen = false → v.toolCalls = [])
    (horder : textBeforeFragments seen chunks = true)
    (h : v.fold agentName chunks = .ok v1) :
    accumulate v.toolCalls (allFragments chunks) = .ok v1.toolCalls := by
  induction chunks generalizing v seen with
  | nil =>
    simp only [View.fold] at h
    injection h with h
    subst h
    rfl
  | cons chunk rest ih =>
    simp only [View.fold] at h
    cases hs : v.step agentName chunk with
    | error e => simp [hs] at h
    | ok v2 =>
      simp only [hs] at h
      have h6 := View.step_toolCalls agentName v v2 chunk hs
      simp only [textBeforeFragments, Bool.and_eq_true, Bool.or_eq_true, decide_eq_true_eq,
        Bool.not_eq_true'] at horder
      obtain ⟨hhere, hrest⟩ := horder
      have hbase : (if deltaTextOf chunk ≠ "" then [] else v.toolCalls) = v.toolCalls := by
        by_cases ht : deltaTextOf chunk = ""
        · simp [ht]
        · rcases hhere with h0 | h0
          · exact absurd h0 ht
          · simp [ht, hseen h0]
      rw [hbase] at h6
      rw [allFragments_cons, accumulate_append, h6]
      apply ih v2 (seen || decide (fragmentsOf chunk ≠ [])) _ hrest h
      intro hs2
      simp only [Bool.or_eq_false_iff, decide_eq_false_iff_not, ne_eq, not_not] at hs2
      obtain ⟨hsf, hfr⟩ := hs2
      rw [hfr] at h6
      simp only [accumulate] at h6
      injection h6 with h6
      rw [← h6]
      exact hseen hsf

theorem foldChunks_toolCalls (agentName : String) (chunks : List StreamChunk)
    (st : LoopState) (horder : textBeforeFragments false chunks = true)
    (h : foldChunks agentName {} chunks = .ok st) :
    accumulate [] (allFragments chunks) = .ok st.resp.toolCalls := by
  have hv := viewOf_foldChunks agentName chunks {}
  rw [h] at hv
  exact View.fold_toolCalls agentName chunks (viewOf {}) (viewOf st) false (fun _ => rfl)
    horder hv.symm

theorem ensureMessage_choices (st : LoopState) :
    ∃ c rest, (ensureMessage st).resp.Choices = c :: rest ∧
      c.Message.ToolCalls = st.resp.toolCalls := by
  unfold ensureMessage
  cases hc : st.resp.Choices with
  | nil =>
    exact ⟨{ Message := { Role := "assistant" } }, [], by simp [hc],
      by simp [Response.toolCalls, hc]⟩
  | cons c rest => exact ⟨c, rest, by simp [hc], by simp [Response.toolCalls, hc]⟩

theorem stateAtFragments_choices (agentName : String) (st : LoopState) (chunk : StreamChunk)
    (choice : Choice) (h : choice.Delta.Content = "" ∨ st.resp.toolCalls = []) :
    ∃ c rest, (stateAtFragments agentName st chunk choice).resp.Choices = c :: rest ∧
      c.Message.ToolCalls = st.resp.toolCalls := by
  obtain ⟨c, rest, h1, h2⟩ := ensureMessage_choices
    (stepContent agentName { st with resp := adoptID st.resp chunk } choice)
  refine ⟨c, rest, h1, ?_⟩
  rw [h2]
  by_cases ht : choice.Delta.Content = ""
  · simp [stepContent, ht, Response.toolCalls, adoptID_choices]
  · have h0 : st.resp.toolCalls = [] := h.resolve_left ht
    rw [h0]
    simp [stepContent, ht, Response.toolCalls]

theorem processChunk_at_fragments (agentName : String) (st : LoopState)
    (chunk : StreamChunk) (choice : Choice) (rest : List Choice)
    (hc : chunk.Choices = choice :: rest) (hfr : choice.Delta.ToolCalls ≠ []) :
    processChunk agentName st chunk =
      match stepFragments agentName (stateAtFragments agentName st chunk choice)
          choice.Delta.ToolCalls with
      | .error e => .error e
      | .ok st2 => stepFinish st2 choice := by
  have hlen : choice.Delta.ToolCalls.length > 0 := List.length_pos.mpr hfr
  simp only [processChunk, hc, stepToolCalls, hlen, if_true, stateAtFragments, ensureMessage]

theorem stepFragments_ok_toolCalls (agentName : String) (frags : List ToolCall)
    (st : LoopState) (c : Choice) (rest : List Choice) (out : List ToolCall)
    (hc : st.resp.Choices = c :: rest)
    (hacc : accumulate c.Message.ToolCalls frags = .ok out) :
    ∃ st1 c1, stepFragments agentName st frags = .ok st1 ∧
      st1.resp.Choices = c1 :: rest ∧ c1.Message.ToolCalls = out ∧
      st1.resp.toolCalls = out := by
  rw [stepFragments_eq agentName frags st c rest hc, hacc]
  exact ⟨_, _, rfl, rfl, rfl, rfl⟩

theorem stepFragment_ok_toolCalls (agentName : String) (tc : ToolCall)
    (st : LoopState) (c : Choice) (rest : List Choice) (out : List ToolCall)
    (hc : st.resp.Choices = c :: rest)
    (happ : applyFragment c.Message.ToolCalls tc = .ok out) :
    ∃ st1, stepFragment agentName st tc = .ok st1 ∧ st1.resp.toolCalls = out := by
  rw [stepFragment_eq agentName st c rest tc hc, happ]
  exact ⟨_, rfl, rfl⟩

/-- C2, amended: for every line stream the loop processes without failure, in
which no delta text arrives after a tool-call fragment and whose fragment
indices arrive densely (each index non-negative and either below the number of
slots already allocated or equal to it), the loop reaches every fragment in a
state whose tool-call list is the one accumulated from the fragments before
it; there a fragment whose index has not been seen before in the stream
allocates a new slot at the end of the list, and a fragment whose index has
been seen before appends its argument text to the slot at the position of its
index, which is the slot assembled from the earlier fragments of that index
(ID, type and name of the first of them), every other slot staying as it is;
hence the final list of the loop has exactly one slot per distinct index, in
first-seen order, each assembled from the fragments of its index. -/
theorem loop_fills_slots_when_dense (decode : String → Option StreamChunk)
    (agentName : String) (lines : List String) (st : LoopState)
    (hrun : streamLoop decode agentName {} lines = .ok st)
    (horder : textBeforeFragments false (parsedChunks decode lines) = true)
    (hdense : dense 0 (allFragments (parsedChunks decode lines)) = true) :
    (∀ before chunk after choice rest pre tc post,
      parsedChunks decode lines = before ++ chunk :: after →
      chunk.Choices = choice :: rest →
      choice.Delta.ToolCalls = pre ++ tc :: post →
      ∃ s1 s2,
        foldChunks agentName {} before = .ok s1 ∧
        processChunk agentName s1 chunk =
          (match stepFragments agentName (stateAtFragments agentName s1 chunk choice)
              choice.Delta.ToolCalls with
            | .error e => .error e
            | .ok s => stepFinish s choice) ∧
        stepFragments agentName (stateAtFragments agentName s1 chunk choice) pre = .ok s2 ∧
        accumulate [] (allFragments before ++ pre) = .ok s2.resp.toolCalls ∧
        (tc.Index ∉ (allFragments before ++ pre).map (·.Index) →
          ∃ s3, stepFragment agentName s2 tc = .ok s3 ∧
            s3.resp.toolCalls = s2.resp.toolCalls ++ [newSlot tc]) ∧
        (tc.Index ∈ (allFragments before ++ pre).map (·.Index) →
          s2.resp.toolCalls[tc.Index.toNat]?
            = assembled (allFragments before ++ pre) tc.Index ∧
          (assembled (allFragments before ++ pre) tc.Index).isSome = true ∧
          ∃ s3, stepFragment agentName s2 tc = .ok s3 ∧
            s3.resp.toolCalls
              = s2.resp.toolCalls.modify (appendArgs tc.Function.Arguments) tc.Index.toNat)) ∧
    st.resp.toolCalls
      = (firstSeen ((allFragments (parsedChunks decode lines)).map (·.Index))).filterMap
          (assembled (allFragments (parsedChunks decode lines))) := by
  have hfold : foldChunks agentName {} (parsedChunks decode lines) = .ok st := by
    rw [← streamLoop_eq_foldChunks]; exact hrun
  constructor
  · intro before chunk after choice rest pre tc post hsplit hc hfr
    rw [hsplit] at hfold horder hdense
    -- the chunks before are processed without failure
    rw [foldChunks_append] at hfold
    cases hs1 : foldChunks agentName {} before with
    | error e => rw [hs1] at hfold; exact Except.noConfusion hfold
    | ok s1 =>
      rw [textBeforeFragments_append] at horder
      simp only [Bool.and_eq_true, Bool.false_or] at horder
      obtain ⟨hord1, hord2⟩ := horder
      have hacc1 := foldChunks_toolCalls agentName before s1 hord1 hs1
      -- no text in this chunk unless no fragment came before
      have htext : choice.Delta.Content = "" ∨ s1.resp.toolCalls = [] := by
        simp only [textBeforeFragments, Bool.and_eq_true, Bool.or_eq_true, decide_eq_true_eq,
          Bool.not_eq_true', decide_eq_false_iff_not, ne_eq, not_not, deltaTextOf, hc]
          at hord2
        rcases hord2.1 with h | h
        · exact Or.inl h
        · right
          rw [h] at hacc1
          simp only [accumulate] at hacc1
          injection hacc1 with hacc1
          exact hacc1.symm
      obtain ⟨c0, r0, hch, htcs⟩ :=
        stateAtFragments_choices agentName s1 chunk choice htext
      -- the fragments up to `tc` arrive densely
      have hfrags : allFragments (before ++ chunk :: after)
          = (allFragments before ++ pre) ++ tc :: (post ++ allFragments after) := by
        rw [allFragments_append, allFragments_cons]
        simp only [fragmentsOf, hc, hfr, List.append_assoc, List.cons_append]
      rw [hfrags] at hdense
      obtain ⟨hstep, -⟩ := accumulate_fills_slots_when_dense _ hdense
      obtain ⟨slots, hslots, hnew, hold⟩ := hstep _ tc _ rfl
      have hpre : accumulate c0.Message.ToolCalls pre = .ok slots := by
        rw [accumulate_append, hacc1] at hslots
        rw [htcs]
        exact hslots
      obtain ⟨s2, c2, hs2, hch2, hc2, htc2⟩ :=
        stepFragments_ok_toolCalls agentName pre _ c0 r0 slots hch hpre
      have hne : choice.Delta.ToolCalls ≠ [] := by rw [hfr]; simp
      refine ⟨s1, s2, rfl, processChunk_at_fragments agentName s1 chunk choice rest hc hne,
        hs2, by rw [htc2]; exact hslots, ?_, ?_⟩
      · intro hunseen
        obtain ⟨s3, hs3, htc3⟩ := stepFragment_ok_toolCalls agentName tc s2 c2 r0 _ hch2
          (by rw [hc2]; exact hnew hunseen)
        exact ⟨s3, hs3, by rw [htc3, htc2]⟩
      · intro hseen
        obtain ⟨h1, h2, h3⟩ := hold hseen
        obtain ⟨s3, hs3, htc3⟩ := stepFragment_ok_toolCalls agentName tc s2 c2 r0 _ hch2
          (by rw [hc2]; exact h3)
        exact ⟨by rw [htc2]; exact h1, h2, s3, hs3, by rw [htc3, htc2]⟩
  · have hacc := foldChunks_toolCalls agentName _ st horder hfold
    obtain ⟨-, out, hout, hfinal⟩ := accumulate_fills_slots_when_dense _ hdense
    rw [hacc] at hout
    injection hout with hout
    rw [hout]
    exact hfinal

/-- Witness of the amended C2 on the sample stream with the indices 0, 1, 0,
1, 1: the loop ends with the two assembled tool calls. -/
theorem loop_fills_slots_when_dense_witness :
    textBeforeFragments false (parsedChunks sampleDecode sampleToolLines) = true ∧
    dense 0 (allFragments (parsedChunks sampleDecode sampleToolLines)) = true ∧
    ∃ st, streamLoop sampleDecode "agent" {} sampleToolLines = .ok st ∧
      st.resp.toolCalls
        = (firstSeen ((allFragments (parsedChunks sampleDecode sampleToolLines)).map
            (·.Index))).filterMap
            (assembled (allFragments (parsedChunks sampleDecode sampleToolLines))) ∧
      st.resp.toolCalls
        = [{ ID := "call_a", Typ := "function", Function := { Name := "f", Arguments := "A1A2" } },
           { ID := "call_b", Typ := "function",
             Function := { Name := "g", Arguments := "B1B2B3" } }] := by
  have h2 : textBeforeFragments false (parsedChunks sampleDecode sampleToolLines) = true := by
    decide
  have h3 : dense 0 (allFragments (parsedChunks sampleDecode sampleToolLines)) = true := by
    decide
  have hok : (streamLoop sampleDecode "agent" {} sampleToolLines).isOk = true := by decide
  refine ⟨h2, h3, ?_⟩
  cases h : streamLoop sampleDecode "agent" {} sampleToolLines with
  | error e => rw [h] at hok; exact absurd hok (by simp [Except.isOk, Except.toBool])
  | ok st =>
    have hfin := (loop_fills_slots_when_dense sampleDecode "agent" sampleToolLines st h h2 h3).2
    refine ⟨st, rfl, hfin, ?_⟩
    rw [hfin]
    decide

/-- C1, counterexample: the stream of a chunk that carries only the finish
reason `stop` followed by a chunk with one fragment of index 0 has no delta
text and dense indices, yet the loop does not end with a tool-call list: it
fails with an out-of-range access at the first chunk. -/
theorem finish_before_fragment_counterexample :
    (∀ c ∈ parsedChunks sampleDecode ["data: fin", "data: a1"], deltaTextOf c = "") ∧
    dense 0 (allFragments (parsedChunks sampleDecode ["data: fin", "data: a1"])) = true ∧
    streamLoop sampleDecode "agent" {} ["data: fin", "data: a1"]
      = .error (.indexOutOfRange 0 0) :=
  ⟨by decide, by decide, by rfl⟩

/-! ## Trimming of the system prompt -/

theorem dropWhile_head_not {α : Type} (p : α → Bool) (l : List α) :
    ∀ x ∈ (l.dropWhile p).head?, p x = false := by
  intro x hx
  have h := List.head?_dropWhile_not p l
  cases hh : (l.dropWhile p).head? with
  | none => rw [hh] at hx; exact absurd hx (by simp)
  | some y =>
    rw [hh] at hx h
    have : y = x := by simpa using hx
    rw [← this]
    exact h

theorem trimSpace_data (s : String) :
    (trimSpace s).data
      = ((s.data.dropWhile isSpace).reverse.dropWhile isSpace).reverse := rfl

theorem trimSpace_eq_empty_iff (s : String) : trimSpace s = "" ↔ blank s = true := by
  have hdata : trimSpace s = "" ↔ (trimSpace s).data = [] := by
    constructor
    · intro h; rw [h]
    · intro h; exact String.ext h
  rw [hdata, trimSpace_data, blank, List.all_eq_true, List.reverse_eq_nil_iff]
  constructor
  · intro h
    rw [List.dropWhile_eq_nil_iff] at h
    by_contra hne
    have hm : s.data.dropWhile isSpace ≠ [] := by
      intro h0
      exact hne (List.dropWhile_eq_nil_iff.mp h0)
    obtain ⟨x, hx⟩ : ∃ x, (s.data.dropWhile isSpace).head? = some x := by
      cases hd : s.data.dropWhile isSpace with
      | nil => exact absurd hd hm
      | cons a rest => exact ⟨a, rfl⟩
    have hnot := dropWhile_head_not isSpace s.data x (by rw [hx]; simp)
    have hmem : x ∈ (s.data.dropWhile isSpace).reverse :=
      List.mem_reverse.mpr (List.mem_of_mem_head? hx)
    rw [h x hmem] at hnot
    exact Bool.noConfusion hnot
  · intro h
    have : s.data.dropWhile isSpace = [] := List.dropWhile_eq_nil_iff.mpr h
    rw [this]
    rfl

theorem trimSpace_isTrimOf (s : String) : IsTrimOf (trimSpace s) s := by
  refine ⟨s.data.takeWhile isSpace,
    ((s.data.dropWhile isSpace).reverse.takeWhile isSpace).reverse, ?_, ?_, ?_, ?_, ?_⟩
  · rw [trimSpace_data, List.append_assoc, ← List.reverse_append,
      List.takeWhile_append_dropWhile, List.reverse_reverse, List.takeWhile_append_dropWhile]
  · intro c hc
    exact List.mem_takeWhile_imp hc
  · intro c hc
    exact List.mem_takeWhile_imp (List.mem_reverse.mp hc)
  · intro c hc
    rw [trimSpace_data] at hc
    have hm : s.data.dropWhile isSpace
        = ((s.data.dropWhile isSpace).reverse.dropWhile isSpace).reverse ++
          ((s.data.dropWhile isSpace).reverse.takeWhile isSpace).reverse := by
      rw [← List.reverse_append, List.takeWhile_append_dropWhile, List.reverse_reverse]
    apply dropWhile_head_not isSpace s.data c
    rw [hm, List.head?_append]
    rw [Option.mem_def] at hc
    rw [hc]
    rfl
  · intro c hc
    rw [trimSpace_data, List.getLast?_reverse] at hc
    exact dropWhile_head_not isSpace _ c hc

/-- C16: `toRequest` emits a system-role wire message for the system prompt
exactly when the prompt is not blank, that is, has a character that is not
white space. When the prompt is blank the wire messages are exactly those
produced from the input messages; otherwise the system message is the first
wire message, its content is the prompt without its leading and trailing
white space, and the messages produced from the input messages follow it. -/
theorem toRequest_system_message (parseFloat : String → Float64)
    (textMimeTypes : String → Bool) (base64Decode : String → String)
    (req : CompletionRequest) :
    ∃ wire, toRequest parseFloat textMimeTypes base64Decode req = .ok wire ∧
      (blank req.SystemPrompt = true →
        wire.Messages = req.Input.foldl (appendMessage textMimeTypes base64Decode) []) ∧
      (blank req.SystemPrompt = false →
        ∃ content, IsTrimOf content req.SystemPrompt ∧ content ≠ "" ∧
          wire.Messages = { Role := "system", Content := content } ::
            req.Input.foldl (appendMessage textMimeTypes base64Decode) []) := by
  obtain ⟨wire, hw, hmsgs⟩ := toRequest_messages parseFloat textMimeTypes base64Decode req
  have hinput : req.Input.foldl (appendMessage textMimeTypes base64Decode) []
      = inputMessages textMimeTypes base64Decode req.Input := by
    rw [foldl_appendMessage, List.nil_append]
  refine ⟨wire, hw, ?_, ?_⟩
  · intro hb
    have ht : trimSpace req.SystemPrompt = "" := (trimSpace_eq_empty_iff _).mpr hb
    rw [hmsgs, hinput]
    simp [systemMessages, ht]
  · intro hb
    have ht : trimSpace req.SystemPrompt ≠ "" := by
      intro h0
      rw [(trimSpace_eq_empty_iff _).mp h0] at hb
      exact Bool.noConfusion hb
    refine ⟨trimSpace req.SystemPrompt, trimSpace_isTrimOf _, ht, ?_⟩
    rw [hmsgs, hinput]
    simp [systemMessages, ht]

/-- Witness of C16: the prompt `  be brief` followed by a blank and a newline
gives the system message `be brief`, and the prompt of a blank, a tab and a
newline gives no wire message. -/
theorem toRequest_system_message_witness :
    blank "  be brief \n" = false ∧ blank " \t\n" = true ∧
    (∃ wire, toRequest sampleFloat sampleTextMime sampleBase64
        { SystemPrompt := "  be brief \n" } = .ok wire ∧
      wire.Messages = [{ Role := "system", Content := "be brief" }]) ∧
    (∃ wire, toRequest sampleFloat sampleTextMime sampleBase64
        { SystemPrompt := " \t\n" } = .ok wire ∧
      wire.Messages = []) := by
  refine ⟨by decide, by decide, ?_, ?_⟩
  · obtain ⟨wire, hw, -, hsome⟩ := toRequest_system_message sampleFloat sampleTextMime
      sampleBase64 { SystemPrompt := "  be brief \n" }
    refine ⟨wire, hw, ?_⟩
    have hval : toRequest sampleFloat sampleTextMime sampleBase64
        { SystemPrompt := "  be brief \n" }
        = .ok { MaxTokens := 4096,
                Messages := [{ Role := "system", Content := "be brief" }] } := by
      rfl
    rw [hval] at hw
    injection hw with hw
    rw [← hw]
  · obtain ⟨wire, hw, hnone, -⟩ := toRequest_system_message sampleFloat sampleTextMime
      sampleBase64 { SystemPrompt := " \t\n" }
    exact ⟨wire, hw, hnone (by decide)⟩

end Deepseek
